import Mathlib

/-!
Verification of the holder-aggregation / rate-limited related-wallet pipeline
of the bubblemap repository (src/src/App.tsx), via a shallow embedding.

BigInt values are modelled as arbitrary-precision naturals.  JS `number`
values flowing through the aggregation (`10 ** decimals`, `parseInt`, `+`,
`Number.prototype.toString`, `parseFloat`) are IEEE-754 binary64 doubles and
are modelled by their exact values: an integer double is the natural it
denotes, produced by `roundDouble` (round-to-nearest, ties-to-even, with
`none` standing for an infinite result); `parseFloat` results are pairs
`(m, e)` denoting `m * 2 ^ e`, produced by `flRat`.  Computations the code
lets escape as thrown exceptions (`BigInt(Infinity)`, `BigInt` applied to
exponent-notation output of `toString`) make the surrounding function return
`none`.  Strings are modelled as Lean strings, JS string operations as
operations on the underlying character lists.
-/

namespace Bubblemap

/-! ## Decimal strings and formatTokenAmount (App.tsx lines 236-253) -/

/-- Character of a decimal digit, as produced by BigInt.toString(10). -/
def digitChar (d : Nat) : Char := Char.ofNat (48 + d)

/-- Numeric value of a decimal digit character. -/
def digitVal (c : Char) : Nat := c.toNat - 48

/-- Value of a list of decimal digit characters, most significant first,
continuing from an accumulator (the usual left-to-right evaluation). -/
def charsValFrom (acc : Nat) : List Char → Nat
  | [] => acc
  | c :: rest => charsValFrom (acc * 10 + digitVal c) rest

/-- Value of a list of decimal digit characters, most significant first. -/
def charsVal (l : List Char) : Nat := charsValFrom 0 l

/-- Least-significant-first decimal digits of `n`, with explicit fuel so the
recursion is structural. -/
def digitsRevAux : Nat → Nat → List Nat
  | 0, _ => []
  | fuel + 1, n => if n = 0 then [] else n % 10 :: digitsRevAux fuel (n / 10)

/-- Least-significant-first decimal digits of `n` (empty for 0). -/
def natDigitsRev (n : Nat) : List Nat := digitsRevAux n n

/-- Decimal digit characters of `n`, most significant first: the characters of
`n.toString()` in JS. -/
def natChars (n : Nat) : List Char :=
  if n = 0 then ['0'] else ((natDigitsRev n).map digitChar).reverse

/-- Model of JS `BigInt.prototype.toString()` for nonnegative values. -/
def toDec (n : Nat) : String := ⟨natChars n⟩

/-- Model of JS `String.prototype.padStart(len, '0')`. -/
def padStartZeros (l : List Char) (len : Nat) : List Char :=
  List.replicate (len - l.length) '0' ++ l

/-- Helper for stripping: works on the reversed character list, dropping
leading `'0'` characters but always keeping at least one character. -/
def stripTrailingAux : List Char → List Char
  | [] => []
  | [c] => [c]
  | c :: c2 :: rest => if c = '0' then stripTrailingAux (c2 :: rest) else c :: c2 :: rest

/-- Model of the `while (endsWith('0') && length > 1) slice(0, -1)` loop of
`formatTokenAmount`. -/
def stripTrailingZeros (l : List Char) : List Char := (stripTrailingAux l.reverse).reverse

/-- The BigInt part of `formatTokenAmount` once the divisor is known:
division/remainder by `divisor`, fraction padded to `decimals` digits,
trailing zeros stripped, fraction dropped entirely when it is `"0"`. -/
def formatTokenAmountWith (amount divisor decimals : Nat) : String :=
  let integerPart := amount / divisor
  let fractionalPart := amount % divisor
  let formattedFraction := stripTrailingZeros (padStartZeros (natChars fractionalPart) decimals)
  if formattedFraction = ['0'] then toDec integerPart
  else ⟨natChars integerPart ++ '.' :: formattedFraction⟩

/-! ## IEEE-754 binary64 arithmetic

The aggregation code computes with JS `number` values.  A nonnegative finite
double is modelled by the natural or rational it denotes; rounding a real to
a double is rounding to the nearest representable value, ties to the even
mantissa, with results of `2 ^ 1024` or more becoming Infinity (`none`). -/

/-- Round `a / b` to the nearest integer, ties to even (`b > 0`). -/
def roundNE (a b : Nat) : Nat :=
  if b < 2 * (a % b) ∨ (2 * (a % b) = b ∧ (a / b) % 2 = 1) then a / b + 1 else a / b

/-- Number of binary digits of `n`, with explicit fuel so the recursion is
structural (`fuel = n` suffices, as `n / 2` shrinks below any positive n). -/
def bitLenAux : Nat → Nat → Nat
  | 0, _ => 0
  | fuel + 1, n => if n = 0 then 0 else bitLenAux fuel (n / 2) + 1

/-- Number of binary digits of `n` (0 for 0): `2 ^ (bitLen n - 1) ≤ n < 2 ^ bitLen n`. -/
def bitLen (n : Nat) : Nat := bitLenAux n n

/-- The double nearest to the natural `n` (ties to even): exact below
`2 ^ 53`, otherwise rounded to 53 significant bits; `none` is Infinity.
This is the value conversion of JS `ToNumber`/`parseInt` on integers and of
IEEE addition of integer doubles applied to their exact sum. -/
def roundDouble (n : Nat) : Option Nat :=
  if n < 2 ^ 53 then some n
  else
    let shift := bitLen n - 53
    let v := roundNE n (2 ^ shift) * 2 ^ shift
    if v < 2 ^ 1024 then some v else none

/-- Model of the JS double expression `10 ** decimals` (exact for
`decimals ≤ 22`, correctly rounded above, Infinity from 309 on). -/
def jsPow10 (d : Nat) : Option Nat := roundDouble (10 ^ d)

/-- Model of `formatTokenAmount` (App.tsx 236-253): `BigInt(amount)` is
exact, but the divisor is `BigInt(10 ** decimals)`, the double power
`10 ** decimals` converted to BigInt; `none` models the `RangeError` thrown
by `BigInt(Infinity)` when `decimals ≥ 309`.  The `decimals === 0` early
return never computes the divisor. -/
def formatTokenAmount (amount : Nat) (decimals : Nat) : Option String :=
  if decimals = 0 then some (toDec amount)
  else (jsPow10 decimals).map (fun divisor => formatTokenAmountWith amount divisor decimals)

/-- Split a character list at the first `'.'` (the dot, when present, starts
the second component). -/
def splitDot : List Char → List Char × List Char
  | [] => ([], [])
  | c :: rest =>
    if c = '.' then ([], c :: rest)
    else
      let p := splitDot rest
      (c :: p.1, p.2)

/-- Exact rational value denoted by a decimal string such as "15.5"; this is
the mathematical reading of the string (and of JS `parseFloat` whenever the
value is representable). -/
def decValue (s : String) : ℚ :=
  let p := splitDot s.data
  match p.2 with
  | [] => (charsVal p.1 : ℚ)
  | _ :: f => (charsVal p.1 : ℚ) + (charsVal f : ℚ) / (10 : ℚ) ^ f.length

/-- The fractional part of a decimal string, if present, is nonempty and does
not end in a zero digit. -/
def noTrailingZeroFrac (s : String) : Prop :=
  match (splitDot s.data).2 with
  | [] => True
  | _ :: f => f ≠ [] ∧ f.getLast? ≠ some '0'

/-- Integer numerator of a decimal string, scaled by `10 ^ decScale s`:
"15.5" has `decNum = 155`, `decScale = 1`.  Comparing decimal strings by
these integers is the comparison `parseFloat` performs, kept in exact
arithmetic. -/
def decNum (s : String) : Nat :=
  match (splitDot s.data).2 with
  | [] => charsVal (splitDot s.data).1
  | _ :: f => charsVal (splitDot s.data).1 * 10 ^ f.length + charsVal f

/-- Number of fractional digits of a decimal string. -/
def decScale (s : String) : Nat :=
  match (splitDot s.data).2 with
  | [] => 0
  | _ :: f => f.length

/-! ## parseFloat and Number.prototype.toString on doubles -/

/-- Binade exponent of `n / 10 ^ d` for `n ≥ 1`: the unique `e` with
`2 ^ e ≤ n / 10 ^ d < 2 ^ (e + 1)`, located from the bit lengths and one
comparison. -/
def flExp (n d : Nat) : Int :=
  let e0 : Int := (bitLen n : Int) - (bitLen (10 ^ d) : Int)
  if 0 ≤ e0 then (if 2 ^ e0.toNat * 10 ^ d ≤ n then e0 else e0 - 1)
  else (if 10 ^ d ≤ n * 2 ^ (-e0).toNat then e0 else e0 - 1)

/-- Rounding of `n / 10 ^ d` to the grid of multiples of `2 ^ u` (ties to
even), as a pair `(r, u)` denoting `r * 2 ^ u`; `none` when the rounded
value reaches `2 ^ 1024` (overflow to Infinity). -/
def flAt (n d : Nat) (u : Int) : Option (Nat × Int) :=
  if 0 ≤ u then
    let r := roundNE n (10 ^ d * 2 ^ u.toNat)
    if 2 ^ 1024 ≤ r * 2 ^ u.toNat then none else some (r, u)
  else
    let r := roundNE (n * 2 ^ (-u).toNat) (10 ^ d)
    if 2 ^ 1024 * 2 ^ (-u).toNat ≤ r then none else some (r, u)

/-- The double nearest to `n / 10 ^ d` (ties to even): rounded at 53
significant bits (or at `2 ^ -1074` in the subnormal range); `none` is
Infinity.  This is JS `parseFloat` on the decimal strings the formatter
produces. -/
def flRat (n d : Nat) : Option (Nat × Int) :=
  if n = 0 then some (0, 0) else flAt n d (max (flExp n d - 52) (-1074))

/-- Comparison `value x ≤ value y` of two nonnegative doubles, `none` being
Infinity (so a tie of two Infinities holds in both directions, matching the
comparator result `NaN`, which Array.prototype.sort treats as 0). -/
def dleB : Option (Nat × Int) → Option (Nat × Int) → Bool
  | _, none => true
  | none, some _ => false
  | some a, some b =>
    if a.2 ≤ b.2 then decide (a.1 ≤ b.1 * 2 ^ (b.2 - a.2).toNat)
    else decide (a.1 * 2 ^ (a.2 - b.2).toNat ≤ b.1)

/-- Value denoted by a double representation `(m, u)`: `m * 2 ^ u`. -/
def dval (m : Nat) (u : Int) : ℚ := (m : ℚ) * (2 : ℚ) ^ u

/-- JS `parseFloat` applied to a plain decimal string such as the formatter
emits: the correctly rounded double of its exact value. -/
def parseFloatRep (s : String) : Option (Nat × Int) := flRat (decNum s) (decScale s)

/-- Strip factors of ten (fuel-structural; `fuel = n` suffices). -/
def stripTens : Nat → Nat → Nat
  | 0, n => n
  | fuel + 1, n => if n % 10 = 0 ∧ n ≠ 0 then stripTens fuel (n / 10) else n

/-- Number of significant decimal digits of `w` (trailing zeros dropped). -/
def sigLen (w : Nat) : Nat := (natDigitsRev (stripTens w w)).length

/-- Scaled distance `|4 * w - 4 * v|` used to compare rounding candidates. -/
def dist4 (w v : Nat) : Nat := if w ≤ v then 4 * v - 4 * w else 4 * w - 4 * v

/-- Candidate order of Number::toString: fewest significant digits first,
then closest to `v` (scaled by 4), then even significand. -/
def betterCand (v w best : Nat) : Bool :=
  decide (sigLen w < sigLen best
    ∨ (sigLen w = sigLen best ∧ dist4 w v < dist4 best v)
    ∨ (sigLen w = sigLen best ∧ dist4 w v = dist4 best v
        ∧ stripTens w w % 2 = 0 ∧ stripTens best best % 2 = 1))

/-- The integer whose digits `Number.prototype.toString` prints for an
integer double `v` below `10 ^ 21`: the shortest decimal that reads back as
`v` (ECMAScript chooses `s` with as few digits as possible among values
whose Number value is `v`, then nearest, then even).  Below `2 ^ 53` no
shorter decimal than `v` itself lies in the rounding interval, so the
digits are exact; above, the interval `(v - ulpB/2, v + ulpA/2)` (closed at
ties when the mantissa is even) is scanned for its integer members - a
candidate with fewer significant digits than every integer one would need a
fractional digit and at least one more digit than `v` has. -/
def shortestInt (v : Nat) : Nat :=
  if v < 2 ^ 53 then v
  else
    let shift := bitLen v - 53
    let c := v / 2 ^ shift
    let ulpA := 2 ^ shift
    let ulpB := if c = 2 ^ 52 then 2 ^ shift / 2 else 2 ^ shift
    let lo := 4 * v - 2 * ulpB
    let hi := 4 * v + 2 * ulpA
    let wlo := (lo + 3) / 4
    let cands := (((List.range (hi / 4 + 1 - wlo)).map (fun i => wlo + i)).filter
      (fun w => if c % 2 = 0 then decide (lo ≤ 4 * w) && decide (4 * w ≤ hi)
                else decide (lo < 4 * w) && decide (4 * w < hi)))
    cands.foldl (fun best w => if betterCand v w best then w else best) v

/-- The integer `BigInt` receives from `BigInt(v.toString())` for an
integer double `v`: its printed digits below `10 ^ 21`; from `10 ^ 21` on
`toString` switches to exponent notation, on which `BigInt` throws a
`SyntaxError` (`none`). -/
def jsIntString (v : Nat) : Option Nat :=
  if v < 10 ^ 21 then some (shortestInt v) else none

/-! ## Data model (App.tsx interfaces TokenHolder / raw API holders) -/

/-- A raw holder record as returned by the addresses endpoint; the quantity
string is modelled by its integer value. -/
structure RawHolder where
  address : String
  quantity : Nat
deriving DecidableEq, Repr

/-- The `TokenHolder` interface of App.tsx: address, formatted quantity
string, and the optional related-address list (absent modelled as `[]`). -/
structure TokenHolder where
  address : String
  quantity : String
  relatedAddresses : List String := []
deriving DecidableEq, Repr

/-! ## Holder aggregation (aggregateHoldersForAllAssets, App.tsx 533-568) -/

/-- Reference (exact-arithmetic) version of one step of
`holdersMap[holder.address] = (holdersMap[holder.address] || 0) + quantity`,
the merge-by-summation the spec describes: a JS object keyed by strings
preserves first-insertion order, and updating an existing key keeps its
position.  The program itself performs this step on doubles (`addToMapD`
below); the two coincide while the running totals stay below `2 ^ 53`. -/
def addToMapExact : List (String × Nat) → String → Nat → List (String × Nat)
  | [], addr, q => [(addr, q)]
  | (a, x) :: rest, addr, q =>
    if a = addr then (a, x + q) :: rest else (a, x) :: addToMapExact rest addr q

/-- Reference accumulation of one asset's holder list (inner `for` loop),
in exact arithmetic. -/
def foldAssetExact (m : List (String × Nat)) (hs : List RawHolder) : List (String × Nat) :=
  hs.foldl (fun m h => addToMapExact m h.address h.quantity) m

/-- Reference holders map after the `for (const asset of assets)` loop, in
exact arithmetic, given the holder list fetched for each asset. -/
def holdersMapExact (assets : List (List RawHolder)) : List (String × Nat) :=
  assets.foldl foldAssetExact []

/-- Association-list lookup (model of JS object / Map read). -/
def assocGet {β : Type} : List (String × β) → String → Option β
  | [], _ => none
  | (a, v) :: rest, k => if a = k then some v else assocGet rest k

/-- Sum of the quantities carried by `addr` in one holder list. -/
def qtyInList (addr : String) (hs : List RawHolder) : Nat :=
  ((hs.filter (fun h => h.address = addr)).map (fun h => h.quantity)).sum

/-- Raw quantity of `addr` summed across all assets (before formatting). -/
def totalQty (assets : List (List RawHolder)) (addr : String) : Nat :=
  (assets.map (qtyInList addr)).sum

/-- JS `parseInt(holder.quantity, 10)` on a decimal digit string: the exact
integer rounded to a double. -/
def parseIntNat (q : Nat) : Option Nat := roundDouble q

/-- IEEE addition of two nonnegative integer doubles: the exact sum rounded
back to a double; anything involving Infinity is Infinity. -/
def jsAdd : Option Nat → Option Nat → Option Nat
  | some a, some b => roundDouble (a + b)
  | _, _ => none

/-- One step of `holdersMap[holder.address] = (holdersMap[holder.address]
|| 0) + quantity` as the program executes it, on doubles. -/
def addToMapD : List (String × Option Nat) → String → Option Nat → List (String × Option Nat)
  | [], addr, q => [(addr, jsAdd (some 0) q)]
  | (a, x) :: rest, addr, q =>
    if a = addr then (a, jsAdd x q) :: rest else (a, x) :: addToMapD rest addr q

/-- Accumulate one asset's holder list into the map (inner `for` loop),
parsing each quantity string with `parseInt`. -/
def foldAssetD (m : List (String × Option Nat)) (hs : List RawHolder) :
    List (String × Option Nat) :=
  hs.foldl (fun m h => addToMapD m h.address (parseIntNat h.quantity)) m

/-- The holders map after the `for (const asset of assets)` loop, given the
holder list fetched for each asset. -/
def holdersMapD (assets : List (List RawHolder)) : List (String × Option Nat) :=
  assets.foldl foldAssetD []

/-- `formatTokenAmount(quantity.toString(), decimals)` applied to a summed
double: a quantity of Infinity prints as `"Infinity"` and one of `10 ^ 21`
or more in exponent notation, on both of which `BigInt` throws (`none`). -/
def formatQuantity (v : Option Nat) (decimals : Nat) : Option String :=
  match v with
  | none => none
  | some w => (jsIntString w).bind (fun n => formatTokenAmount n decimals)

/-- The `Object.entries(holdersMap).map(...)` conversion: every entry is
formatted; a throw from any entry aborts the aggregation (`none`). -/
def formatEntries : List (String × Option Nat) → Nat → Option (List TokenHolder)
  | [], _ => some []
  | (a, v) :: rest, d =>
    match formatQuantity v d, formatEntries rest d with
    | some s, some l => some (⟨a, s, []⟩ :: l)
    | _, _ => none

/-- The descending order used by `.sort((a, b) => parseFloat(b.quantity) -
parseFloat(a.quantity))`: `b`'s parseFloat double is at most `a`'s. -/
def holderDescOrder (a b : TokenHolder) : Prop :=
  dleB (parseFloatRep b.quantity) (parseFloatRep a.quantity) = true

instance : DecidableRel holderDescOrder := fun a b =>
  inferInstanceAs
    (Decidable (dleB (parseFloatRep b.quantity) (parseFloatRep a.quantity) = true))

/-- Model of `aggregateHoldersForAllAssets` (App.tsx 533-568) given the
holder lists fetched per asset and the decimals of the first asset: merge
quantities by address in double arithmetic, format each total, sort
descending by quantity (JS sort is stable; insertion sort is the stable
sort); `none` models the error the function rethrows when formatting
throws. -/
def aggregateHoldersForAllAssets (assets : List (List RawHolder)) (decimals : Nat) :
    Option (List TokenHolder) :=
  (formatEntries (holdersMapD assets) decimals).map (List.insertionSort holderDescOrder)

/-- Reference result of the aggregation in exact arithmetic; the program
provably produces exactly this list while every per-address total stays
below `2 ^ 53` and `decimals ≤ 22`. -/
def aggregateExact (assets : List (List RawHolder)) (decimals : Nat) : List TokenHolder :=
  List.insertionSort holderDescOrder
    ((holdersMapExact assets).map
      (fun p => ⟨p.1, formatTokenAmountWith p.2 (10 ^ decimals) decimals, []⟩))

/-- Model of the formatting step of the single-asset path `fetchHolders`
(App.tsx 452-483): each fetched holder's raw quantity string is formatted in
place (exactly - `formatTokenAmount` receives `holder.quantity` itself, not
the parsed double), with no deduplication of addresses; a formatting throw
aborts the whole map (`none`). -/
def fetchHoldersFormat : List RawHolder → Nat → Option (List TokenHolder)
  | [], _ => some []
  | h :: rest, d =>
    match formatTokenAmount h.quantity d, fetchHoldersFormat rest d with
    | some s, some l => some (⟨h.address, s, []⟩ :: l)
    | _, _ => none

/-! ## Pagination and error classification
(fetchAssetsForPolicy 281-314, fetchHoldersForAsset 316-351, handleApiError
578-588) -/

/-- The typed failures `handleApiError` throws. -/
inductive ApiError where
  | notFound : ApiError
  | accessDenied : String → ApiError
  | generic : Nat → ApiError
deriving DecidableEq, Repr

/-- Classification of a non-success HTTP status (App.tsx 578-588); each branch
throws, so the classified error propagates to the caller. -/
def handleApiError (status : Nat) (errorText : String) : ApiError :=
  if status = 404 then .notFound
  else if status = 403 then .accessDenied errorText
  else .generic status

/-- Outcome of one page request: a record list, or a non-success status with
its response body. -/
inductive PageResult (α : Type) where
  | ok : List α → PageResult α
  | httpError : Nat → String → PageResult α
deriving DecidableEq, Repr

/-- Model of `fetchAssetsForPolicy`: pages are requested in order starting at
page 1 (successive entries of the oracle list; an exhausted oracle responds
with an empty page, matching an endpoint that has no further data).  A
non-success status is classified and thrown, discarding the accumulation; an
empty page or a short page (fewer than the page size 100) ends the loop. -/
def fetchAssetsForPolicy {α : Type} : List (PageResult α) → Except ApiError (List α)
  | [] => .ok []
  | .httpError s b :: _ => .error (handleApiError s b)
  | .ok p :: rest =>
    if p.length = 0 then .ok []
    else if p.length < 100 then .ok p
    else
      match fetchAssetsForPolicy rest with
      | .ok l => .ok (p ++ l)
      | .error e => .error e

/-- The `while (allHolders.length < maxHolders)` loop of
`fetchHoldersForAsset`, with accumulator. -/
def fetchHoldersAux {α : Type} : List (PageResult α) → List α → Except ApiError (List α)
  | [], acc => .ok acc
  | p :: rest, acc =>
    if 150 ≤ acc.length then .ok acc
    else
      match p with
      | .httpError s b => .error (handleApiError s b)
      | .ok l =>
        if l.length = 0 then .ok acc
        else if l.length < 100 ∨ 150 ≤ (acc ++ l).length then .ok (acc ++ l)
        else fetchHoldersAux rest (acc ++ l)

/-- Model of `fetchHoldersForAsset` (App.tsx 316-351): paginate like the asset
fetcher but stop once 150 holders have accumulated, and return only the top
150 (`allHolders.slice(0, maxHolders)`). -/
def fetchHoldersForAsset {α : Type} (pages : List (PageResult α)) : Except ApiError (List α) :=
  (fetchHoldersAux pages []).map (fun l => l.take 150)

/-- The record sequence a fully successful pagination accumulates: pages
concatenated in request order up to and including the first empty or short
page. -/
def pureJoin {α : Type} : List (List α) → List α
  | [] => []
  | p :: rest => if p.length = 0 then [] else if p.length < 100 then p else p ++ pureJoin rest

/-! ## Related-wallet resolver (findRelatedWallets, App.tsx 353-450) -/

/-- The two Blockfrost lookups the resolver chains, as oracles.  `none` from
`addressLookup` models a failed request or thrown error for that address
(swallowed by the per-holder try/catch); `some none` a payload whose
`stake_address` is null; `some (some s)` stake address `s`.  `none` from
`accountLookup` models a failed account request. -/
structure Api where
  addressLookup : String → Option (Option String)
  accountLookup : String → Option (List String)

/-- Association-list write (model of `Map.set`): overwrite in place, append
when absent. -/
def mapSet {β : Type} : List (String × β) → String → β → List (String × β)
  | [], k, v => [(k, v)]
  | (a, x) :: rest, k, v =>
    if a = k then (k, v) :: rest else (a, x) :: mapSet rest k v

/-- Model of `new Set(list)` iterated in insertion order: duplicates dropped,
first occurrences kept. -/
def dedupKeepFirst : List String → List String
  | [] => []
  | a :: rest => a :: (dedupKeepFirst rest).filter (fun b => b ≠ a)

/-- The `relevantAddresses` set: the stake account's address set intersected with the
addresses present in the holder distribution (App.tsx 407-410). -/
def relevantAddressesOf (holders : List TokenHolder) (l : List String) : List String :=
  (dedupKeepFirst l).filter (fun a => holders.any (fun h => h.address = a))

/-- One holder's lookups (the body of the `batch.map` callback): on any
failure nothing is recorded; on success a group of more than one relevant
address is stored under the stake address. -/
def processHolder (holders : List TokenHolder) (api : Api)
    (m : List (String × List String)) (h : TokenHolder) : List (String × List String) :=
  match api.addressLookup h.address with
  | none => m
  | some none => m
  | some (some s) =>
    match api.accountLookup s with
    | none => m
    | some l =>
      let relevant := relevantAddressesOf holders l
      if 1 < relevant.length then mapSet m s relevant else m

/-- The `stakeAddressMap` after all batches.  Batches are awaited in order and
each stake key's stored group is determined by the api alone, so the batched
interleaving is modelled by the sequential fold. -/
def buildStakeMap (holders : List TokenHolder) (api : Api) : List (String × List String) :=
  holders.foldl (processHolder holders api) []

/-- Inner loop of the group conversion: for each address of the group `g`,
store `g` minus that address (when nonempty) in the related-wallets map.  The
first argument is the whole group (`related = new Set(addresses)` minus self),
the second the addresses still to visit. -/
def relGroupAux (g : List String) : List String → List (String × List String) →
    List (String × List String)
  | [], rw => rw
  | addr :: rest, rw =>
    let related := g.filter (fun b => b ≠ addr)
    relGroupAux g rest (if related.isEmpty then rw else mapSet rw addr related)

/-- The `stakeAddressMap.forEach` conversion of one group (App.tsx 436-444). -/
def setRelatedForGroup (rw : List (String × List String)) (g : List String) :
    List (String × List String) :=
  relGroupAux g g rw

/-- The `relatedWallets` map built from all stored groups. -/
def buildRelatedWallets (sm : List (String × List String)) : List (String × List String) :=
  sm.foldl (fun rw kv => setRelatedForGroup rw kv.2) []

/-- Model of `findRelatedWallets` (App.tsx 353-450): annotate every holder,
in place and in order, with its related-address list (empty when none). -/
def findRelatedWallets (holders : List TokenHolder) (api : Api) : List TokenHolder :=
  let rw := buildRelatedWallets (buildStakeMap holders api)
  holders.map (fun h => { h with relatedAddresses := (assocGet rw h.address).getD [] })

/-- The single-asset pipeline tail of `fetchHolders`: format the fetched
holders, then annotate them with related wallets (skipped when formatting
threw). -/
def fetchHoldersPipeline (holders : List RawHolder) (decimals : Nat) (api : Api) :
    Option (List TokenHolder) :=
  (fetchHoldersFormat holders decimals).map (fun hs => findRelatedWallets hs api)

/-! ## Rate limiter (class RateLimiter, App.tsx 142-204) -/

/-- Rate limiting constants (App.tsx 143-146). -/
def REQUESTS_PER_SECOND : Nat := 10

def BURST_LIMIT : Nat := 500

def REQUEST_INTERVAL : Nat := 1000 / REQUESTS_PER_SECOND

/-- State of the token-bucket limiter: permits, last-refill timestamp (ms),
queued operation ids in arrival order, executed operation ids in execution
order, and the id the next `schedule` call will receive. -/
structure RLState where
  tokens : Nat
  lastRefill : Nat
  queue : List Nat
  executed : List Nat
  nextId : Nat
deriving DecidableEq, Repr

/-- A fresh limiter at time `t0`: full bucket, empty queue. -/
def RLState.start (t0 : Nat) : RLState :=
  ⟨BURST_LIMIT, t0, [], [], 0⟩

/-- Model of `refillTokens` (App.tsx 194-203): linear refill by elapsed time, capped at
the burst ceiling; the timestamp advances only when at least one token
accrued. -/
def refillTokens (s : RLState) (now : Nat) : RLState :=
  let newTokens := (now - s.lastRefill) / REQUEST_INTERVAL
  if 0 < newTokens then
    { s with tokens := min BURST_LIMIT (s.tokens + newTokens), lastRefill := now }
  else s

/-- The limiter's transitions: `schedule` enqueues the next operation;
`processQueue` refills and then either executes the queue head (consuming one
permit) or merely waits (refill only).  `now` is the current clock value,
never before the last refill. -/
inductive RLStep : RLState → RLState → Prop
  | schedule (s : RLState) :
      RLStep s { s with queue := s.queue ++ [s.nextId], nextId := s.nextId + 1 }
  | exec (s : RLState) (now : Nat) (hnow : s.lastRefill ≤ now) (op : Nat) (rest : List Nat)
      (hq : (refillTokens s now).queue = op :: rest)
      (ht : 0 < (refillTokens s now).tokens) :
      RLStep s { refillTokens s now with
                  tokens := (refillTokens s now).tokens - 1,
                  queue := rest,
                  executed := (refillTokens s now).executed ++ [op] }
  | wait (s : RLState) (now : Nat) (hnow : s.lastRefill ≤ now) :
      RLStep s (refillTokens s now)

/-- States the limiter can reach from a fresh start. -/
inductive RLReachable : RLState → Prop
  | start (t0 : Nat) : RLReachable (RLState.start t0)
  | step (s s₂ : RLState) : RLReachable s → RLStep s s₂ → RLReachable s₂

/-! ## Asset-list dispatch (fetchAssets, App.tsx 485-531) -/

/-- An asset as the dispatch logic sees it: identifier and optional metadata
display name (`metadata?.name`; a present-but-empty name is `some ""`). -/
structure AssetInfo where
  asset : String
  name : Option String
deriving DecidableEq, Repr

/-- Which path `fetchAssets` takes after loading the asset list. -/
inductive FetchMode where
  | noAssets : FetchMode
  | single : String → FetchMode
  | aggregate : FetchMode
deriving DecidableEq, Repr

/-- Model of `isFungibleToken` (App.tsx 514-516): every asset has a falsy
(`undefined` or empty) name, or a name strictly equal to the first asset's
name. -/
def isFungibleToken (assets : List AssetInfo) : Bool :=
  assets.all fun a => (a.name.getD "" == "") || (a.name == (assets.headD ⟨"", none⟩).name)

/-- The dispatch of `fetchAssets`: no assets is an error; one asset goes to
the single-asset path; several assets aggregate exactly when
`isFungibleToken`, and otherwise only the first asset's holders are
fetched. -/
def fetchAssetsDispatch (assets : List AssetInfo) : FetchMode :=
  match assets with
  | [] => .noAssets
  | [a] => .single a.asset
  | a0 :: a1 :: rest =>
    if isFungibleToken (a0 :: a1 :: rest) then .aggregate else .single a0.asset

/-- Decidable equality for fetch results, so concrete runs can be checked by
`decide`. -/
instance {ε α : Type} [DecidableEq ε] [DecidableEq α] : DecidableEq (Except ε α) := fun x y =>
  match x, y with
  | .ok a, .ok b =>
    if h : a = b then isTrue (by rw [h]) else isFalse (by intro hh; cases hh; exact h rfl)
  | .ok _, .error _ => isFalse (by intro h; cases h)
  | .error _, .ok _ => isFalse (by intro h; cases h)
  | .error e, .error f =>
    if h : e = f then isTrue (by rw [h]) else isFalse (by intro hh; cases hh; exact h rfl)

/-! ## Concrete instances used by counterexamples and witnesses -/

/-- Pages of sizes 100, 100, 37 — the page profile named by the spec. -/
def pages237 : List (PageResult Nat) :=
  [.ok (List.replicate 100 0), .ok (List.replicate 100 0), .ok (List.replicate 37 0)]

/-- A successful full page followed by a server error. -/
def pagesWithError : List (PageResult Nat) :=
  [.ok (List.replicate 100 0), .httpError 500 "server error"]

/-- Two holders sharing stake key `stakeS`; the first holder's address lookup
fails, the second succeeds and exposes both addresses. -/
def apiOneFailure : Api where
  addressLookup := fun a => if a = "addrB" then some (some "stakeS") else none
  accountLookup := fun s => if s = "stakeS" then some ["addrA", "addrB"] else none

def holdersAB : List TokenHolder :=
  [⟨"addrA", "30", []⟩, ⟨"addrB", "20", []⟩]

/-- An api on which every lookup fails. -/
def apiAllFail : Api where
  addressLookup := fun _ => none
  accountLookup := fun _ => none

/-- Holders and api for the related-wallet witness: `addrA` and `addrB` share
`stakeS`, whose account also contains `addrC`, absent from the distribution;
`addrD` has no stake key. -/
def apiShared : Api where
  addressLookup := fun a =>
    if a = "addrA" then some (some "stakeS")
    else if a = "addrB" then some (some "stakeS")
    else some none
  accountLookup := fun s => if s = "stakeS" then some ["addrA", "addrB", "addrC"] else none

def holdersABD : List TokenHolder :=
  [⟨"addrA", "30", []⟩, ⟨"addrB", "20", []⟩, ⟨"addrD", "10", []⟩]

/-- A duplicated source holder list for the single-asset path. -/
def dupRawHolders : List RawHolder :=
  [⟨"addrA", 30⟩, ⟨"addrA", 10⟩]

/-- The spec's aggregation example: {A:30, B:20} under asset1, {A:10, C:5}
under asset2. -/
def exampleAssets : List (List RawHolder) :=
  [[⟨"A", 30⟩, ⟨"B", 20⟩], [⟨"A", 10⟩, ⟨"C", 5⟩]]

/-- A single asset whose lone holder owns `2 ^ 53 + 1` units, one past the
largest integer a double resolves. -/
def overflowAssets : List (List RawHolder) :=
  [[⟨"A", 9007199254740993⟩]]

/-- A reachable limiter state about to execute queued operation 0. -/
def rlBefore : RLState := ⟨500, 0, [0], [], 1⟩

def rlAfter : RLState := ⟨499, 0, [], [0], 1⟩

/-! ## Lemmas: decimal formatting -/

theorem charsValFrom_nil (acc : Nat) : charsValFrom acc [] = acc := rfl

theorem charsValFrom_cons (acc : Nat) (c : Char) (rest : List Char) :
    charsValFrom acc (c :: rest) = charsValFrom (acc * 10 + digitVal c) rest := rfl

theorem charsValFrom_append (a b : List Char) (acc : Nat) :
    charsValFrom acc (a ++ b) = charsValFrom (charsValFrom acc a) b := by
  induction a generalizing acc with
  | nil => rw [List.nil_append, charsValFrom_nil]
  | cons c rest ih => rw [List.cons_append, charsValFrom_cons, charsValFrom_cons, ih]

theorem charsValFrom_eq (l : List Char) (acc : Nat) :
    charsValFrom acc l = acc * 10 ^ l.length + charsVal l := by
  induction l generalizing acc with
  | nil => rw [charsValFrom_nil]; simp [charsVal, charsValFrom_nil]
  | cons c rest ih =>
    have h2 : charsVal (c :: rest) = charsValFrom (digitVal c) rest := by
      rw [charsVal, charsValFrom_cons]; norm_num
    rw [charsValFrom_cons, ih, h2, ih]
    rw [List.length_cons, pow_succ]
    ring

theorem charsVal_append_singleton (x : List Char) (c : Char) :
    charsVal (x ++ [c]) = charsVal x * 10 + digitVal c := by
  rw [charsVal, charsValFrom_append, charsValFrom_cons, charsValFrom_nil, charsVal]

theorem digitVal_digitChar (d : Nat) (h : d < 10) : digitVal (digitChar d) = d := by
  interval_cases d <;> decide

theorem digitChar_ne_dot (d : Nat) (h : d < 10) : digitChar d ≠ '.' := by
  interval_cases d <;> decide

theorem digitsRevAux_lt (fuel : Nat) : ∀ n d, d ∈ digitsRevAux fuel n → d < 10 := by
  induction fuel with
  | zero => intro n d h; simp [digitsRevAux] at h
  | succ f ih =>
    intro n d h
    by_cases hn : n = 0
    · simp [digitsRevAux, hn] at h
    · simp [digitsRevAux, hn] at h
      rcases h with h | h
      · omega
      · exact ih _ _ h

theorem charsVal_digitsRevAux (fuel : Nat) :
    ∀ n, n ≤ fuel → charsVal (((digitsRevAux fuel n).map digitChar).reverse) = n := by
  induction fuel with
  | zero => intro n h; interval_cases n; rfl
  | succ f ih =>
    intro n h
    by_cases hn : n = 0
    · simp [digitsRevAux, hn, charsVal, charsValFrom_nil]
    · have hd : n % 10 < 10 := Nat.mod_lt _ (by omega)
      have hle : n / 10 ≤ f := by
        have := Nat.div_lt_self (Nat.pos_of_ne_zero hn) (by omega : 1 < 10)
        omega
      simp only [digitsRevAux, hn, if_false, List.map_cons, List.reverse_cons]
      rw [charsVal_append_singleton, ih _ hle, digitVal_digitChar _ hd]
      omega

theorem charsVal_natChars (n : Nat) : charsVal (natChars n) = n := by
  by_cases hn : n = 0
  · subst hn; decide
  · rw [natChars, if_neg hn, natDigitsRev]
    exact charsVal_digitsRevAux n n le_rfl

theorem mem_natChars_digit (n : Nat) : ∀ c ∈ natChars n, ∃ d, d < 10 ∧ c = digitChar d := by
  intro c hc
  by_cases hn : n = 0
  · subst hn
    simp [natChars] at hc
    exact ⟨0, by omega, by rw [hc]; decide⟩
  · rw [natChars, if_neg hn] at hc
    simp only [List.mem_reverse, List.mem_map] at hc
    obtain ⟨d, hd, rfl⟩ := hc
    exact ⟨d, digitsRevAux_lt _ _ _ hd, rfl⟩

theorem natChars_ne_dot (n : Nat) : ∀ c ∈ natChars n, c ≠ '.' := by
  intro c hc
  obtain ⟨d, hd, rfl⟩ := mem_natChars_digit n c hc
  exact digitChar_ne_dot d hd

theorem length_digitsRevAux_le (fuel : Nat) :
    ∀ n k, n < 10 ^ k → (digitsRevAux fuel n).length ≤ k := by
  induction fuel with
  | zero => intro n k _; simp [digitsRevAux]
  | succ f ih =>
    intro n k hk
    by_cases hn : n = 0
    · simp [digitsRevAux, hn]
    · have hk1 : 1 ≤ k := by
        rcases Nat.eq_zero_or_pos k with h | h
        · subst h; simp at hk; omega
        · exact h
      rw [digitsRevAux, if_neg hn]
      have hdiv : n / 10 < 10 ^ (k - 1) := by
        rw [Nat.div_lt_iff_lt_mul (by omega : 0 < 10)]
        calc n < 10 ^ k := hk
        _ = 10 ^ (k - 1) * 10 := by rw [← pow_succ]; congr 1; omega
      have := ih (n / 10) (k - 1) hdiv
      simp only [List.length_cons]
      omega

theorem length_natChars_le (n k : Nat) (h : n < 10 ^ k) (hk : 1 ≤ k) :
    (natChars n).length ≤ k := by
  by_cases hn : n = 0
  · subst hn; simpa [natChars] using hk
  · rw [natChars, if_neg hn, List.length_reverse, List.length_map, natDigitsRev]
    exact length_digitsRevAux_le n n k h

theorem charsValFrom_replicate_zero (k : Nat) (acc : Nat) :
    charsValFrom acc (List.replicate k '0') = acc * 10 ^ k := by
  induction k generalizing acc with
  | zero => rw [List.replicate_zero, charsValFrom_nil]; ring
  | succ j ih =>
    rw [List.replicate_succ, charsValFrom_cons, ih]
    have h0 : digitVal '0' = 0 := by decide
    rw [h0, pow_succ]
    ring

theorem charsVal_padStart (l : List Char) (len : Nat) :
    charsVal (padStartZeros l len) = charsVal l := by
  rw [padStartZeros, charsVal, charsValFrom_append, charsValFrom_replicate_zero, charsVal]
  norm_num

theorem length_padStart (l : List Char) (len : Nat) (h : l.length ≤ len) :
    (padStartZeros l len).length = len := by
  rw [padStartZeros, List.length_append, List.length_replicate]
  omega

theorem charsVal_append_replicate (s : List Char) (z : Nat) :
    charsVal (s ++ List.replicate z '0') = charsVal s * 10 ^ z := by
  rw [charsVal, charsValFrom_append, charsValFrom_replicate_zero]
  rfl

theorem stripTrailingAux_spec (r : List Char) (h : r ≠ []) :
    ∃ z, r = List.replicate z '0' ++ stripTrailingAux r ∧ stripTrailingAux r ≠ [] ∧
      ((stripTrailingAux r).head? ≠ some '0' ∨ (stripTrailingAux r).length = 1) := by
  induction r with
  | nil => exact absurd rfl h
  | cons c rest ih =>
    match rest with
    | [] => exact ⟨0, by simp [stripTrailingAux]⟩
    | c2 :: rest2 =>
      by_cases hc : c = '0'
      · obtain ⟨z, hz, hne, hh⟩ := ih (by simp)
        subst hc
        refine ⟨z + 1, ?_, ?_, hh⟩
        · rw [stripTrailingAux, if_pos rfl]
          rw [List.replicate_succ, List.cons_append]
          exact congrArg _ hz
        · rw [stripTrailingAux, if_pos rfl]
          exact hne
      · refine ⟨0, ?_, by simp [stripTrailingAux, hc], ?_⟩
        · rw [stripTrailingAux, if_neg hc]
          simp
        · left
          rw [stripTrailingAux, if_neg hc]
          simpa using hc

theorem stripTrailingZeros_spec (l : List Char) (h : l ≠ []) :
    ∃ z, l = stripTrailingZeros l ++ List.replicate z '0' ∧ stripTrailingZeros l ≠ [] ∧
      ((stripTrailingZeros l).getLast? ≠ some '0' ∨ (stripTrailingZeros l).length = 1) := by
  have hr : l.reverse ≠ [] := by simpa using h
  obtain ⟨z, hz, hne, hh⟩ := stripTrailingAux_spec l.reverse hr
  refine ⟨z, ?_, ?_, ?_⟩
  · show l = (stripTrailingAux l.reverse).reverse ++ List.replicate z '0'
    conv_lhs => rw [← List.reverse_reverse l, hz]
    rw [List.reverse_append, List.reverse_replicate]
  · rw [stripTrailingZeros]
    simpa using hne
  · rw [stripTrailingZeros]
    rcases hh with hh | hh
    · left
      rw [List.getLast?_reverse]
      exact hh
    · right
      simpa using hh

theorem splitDot_no_dot (l : List Char) (h : ∀ c ∈ l, c ≠ '.') : splitDot l = (l, []) := by
  induction l with
  | nil => rfl
  | cons c rest ih =>
    have hc : c ≠ '.' := h c (by simp)
    rw [splitDot]
    simp only [if_neg hc]
    rw [ih (fun x hx => h x (by simp [hx]))]

theorem splitDot_append_dot (a b : List Char) (h : ∀ c ∈ a, c ≠ '.') :
    splitDot (a ++ '.' :: b) = (a, '.' :: b) := by
  induction a with
  | nil => simp [splitDot]
  | cons c rest ih =>
    have hc : c ≠ '.' := h c (by simp)
    rw [List.cons_append, splitDot]
    simp only [if_neg hc]
    rw [ih (fun x hx => h x (by simp [hx]))]

theorem decValue_mk_nodot (l : List Char) (h : ∀ c ∈ l, c ≠ '.') :
    decValue ⟨l⟩ = (charsVal l : ℚ) := by
  unfold decValue
  rw [show (String.mk l).data = l from rfl, splitDot_no_dot l h]

theorem decValue_mk_dot (a b : List Char) (h : ∀ c ∈ a, c ≠ '.') :
    decValue ⟨a ++ '.' :: b⟩ = (charsVal a : ℚ) + (charsVal b : ℚ) / (10 : ℚ) ^ b.length := by
  unfold decValue
  rw [show (String.mk (a ++ '.' :: b)).data = a ++ '.' :: b from rfl, splitDot_append_dot a b h]

theorem decValue_toDec (n : Nat) : decValue (toDec n) = (n : ℚ) := by
  rw [toDec, decValue_mk_nodot _ (natChars_ne_dot n), charsVal_natChars]

theorem fracDecompose (fp d : Nat) (hfp : fp < 10 ^ d) (hd : 1 ≤ d) :
    ∃ f z, stripTrailingZeros (padStartZeros (natChars fp) d) = f
      ∧ fp = charsVal f * 10 ^ z
      ∧ f.length + z = d
      ∧ f ≠ []
      ∧ (f.getLast? ≠ some '0' ∨ f.length = 1) := by
  have hlen : (natChars fp).length ≤ d := length_natChars_le _ _ hfp hd
  have hpadlen : (padStartZeros (natChars fp) d).length = d := length_padStart _ _ hlen
  have hpadval : charsVal (padStartZeros (natChars fp) d) = fp := by
    rw [charsVal_padStart, charsVal_natChars]
  have hpadne : padStartZeros (natChars fp) d ≠ [] := by
    intro h0
    rw [h0] at hpadlen
    simp at hpadlen
    omega
  obtain ⟨z, hsplit, hfne, hlast⟩ := stripTrailingZeros_spec _ hpadne
  refine ⟨stripTrailingZeros (padStartZeros (natChars fp) d), z, rfl, ?_, ?_, hfne, hlast⟩
  · have hval2 : charsVal (stripTrailingZeros (padStartZeros (natChars fp) d)
        ++ List.replicate z '0') = fp := by
      rw [← hsplit]
      exact hpadval
    rw [charsVal_append_replicate] at hval2
    omega
  · have hL := congrArg List.length hsplit
    rw [List.length_append, List.length_replicate] at hL
    omega

theorem formatWith_cases (q D d : Nat) :
    formatTokenAmountWith q D d
      = if stripTrailingZeros (padStartZeros (natChars (q % D)) d) = ['0']
        then toDec (q / D)
        else ⟨natChars (q / D) ++ '.'
              :: stripTrailingZeros (padStartZeros (natChars (q % D)) d)⟩ := rfl

theorem formatWith_den_one (q : Nat) : formatTokenAmountWith q (10 ^ 0) 0 = toDec q := by
  rw [pow_zero, formatWith_cases, Nat.mod_one, Nat.div_one,
    if_pos (by decide : stripTrailingZeros (padStartZeros (natChars 0) 0) = ['0'])]

theorem decValue_formatWith (q d : Nat) :
    decValue (formatTokenAmountWith q (10 ^ d) d) = (q : ℚ) / 10 ^ d := by
  by_cases hd : d = 0
  · subst hd
    rw [formatWith_den_one, decValue_toDec]
    simp
  · have hd1 : 1 ≤ d := Nat.one_le_iff_ne_zero.mpr hd
    have hfplt : q % 10 ^ d < 10 ^ d := Nat.mod_lt _ (pow_pos (by norm_num) d)
    obtain ⟨f, z, hfeq, hval, hlen2, hfne, hlast⟩ := fracDecompose (q % 10 ^ d) d hfplt hd1
    have hform := formatWith_cases q (10 ^ d) d
    rw [hfeq] at hform
    by_cases hzero : f = ['0']
    · rw [hform, if_pos hzero, decValue_toDec]
      have h00 : charsVal ['0'] = 0 := by decide
      rw [hzero, h00] at hval
      simp at hval
      have hqdm := Nat.div_add_mod q (10 ^ d)
      have hq : (q : ℚ) = (10 : ℚ) ^ d * ((q / 10 ^ d : Nat) : ℚ) := by
        exact_mod_cast congrArg (fun n : Nat => (n : ℚ))
          (by omega : q = 10 ^ d * (q / 10 ^ d))
      rw [hq]
      field_simp
    · rw [hform, if_neg hzero, decValue_mk_dot _ _ (natChars_ne_dot _), charsVal_natChars]
      have hqdm := Nat.div_add_mod q (10 ^ d)
      have hq : (q : ℚ) = (10 : ℚ) ^ d * ((q / 10 ^ d : Nat) : ℚ)
          + (charsVal f : ℚ) * (10 : ℚ) ^ z := by
        exact_mod_cast congrArg (fun n : Nat => (n : ℚ))
          (by omega : q = 10 ^ d * (q / 10 ^ d) + charsVal f * 10 ^ z)
      have h10 : (10 : ℚ) ^ d = (10 : ℚ) ^ f.length * (10 : ℚ) ^ z := by
        rw [← pow_add, hlen2]
      rw [hq, h10]
      have hz1 : (0 : ℚ) < 10 ^ z := by positivity
      have hz2 : (0 : ℚ) < 10 ^ f.length := by positivity
      field_simp
      ring

theorem noTrailingZeroFrac_mk_nodot (l : List Char) (h : ∀ c ∈ l, c ≠ '.') :
    noTrailingZeroFrac ⟨l⟩ := by
  unfold noTrailingZeroFrac
  rw [show (String.mk l).data = l from rfl, splitDot_no_dot l h]
  exact trivial

theorem noTrailing_formatWith (q d : Nat) :
    noTrailingZeroFrac (formatTokenAmountWith q (10 ^ d) d) := by
  by_cases hd : d = 0
  · subst hd
    rw [formatWith_den_one, toDec]
    exact noTrailingZeroFrac_mk_nodot _ (natChars_ne_dot _)
  · have hd1 : 1 ≤ d := Nat.one_le_iff_ne_zero.mpr hd
    have hfplt : q % 10 ^ d < 10 ^ d := Nat.mod_lt _ (pow_pos (by norm_num) d)
    obtain ⟨f, z, hfeq, hval, hlen2, hfne, hlast⟩ := fracDecompose (q % 10 ^ d) d hfplt hd1
    have hform := formatWith_cases q (10 ^ d) d
    rw [hfeq] at hform
    by_cases hzero : f = ['0']
    · rw [hform, if_pos hzero, toDec]
      exact noTrailingZeroFrac_mk_nodot _ (natChars_ne_dot _)
    · rw [hform, if_neg hzero]
      unfold noTrailingZeroFrac
      rw [show (String.mk (natChars (q / 10 ^ d) ++ '.' :: f)).data
          = natChars (q / 10 ^ d) ++ '.' :: f from rfl]
      rw [splitDot_append_dot _ _ (natChars_ne_dot _)]
      refine ⟨hfne, ?_⟩
      rcases hlast with hh | hh
      · exact hh
      · obtain ⟨c, hc⟩ := List.length_eq_one.mp hh
        rw [hc]
        intro hcontra
        simp at hcontra
        apply hzero
        rw [hc, hcontra]

theorem decValue_eq_scaled (s : String) :
    decValue s = (decNum s : ℚ) / (10 : ℚ) ^ decScale s := by
  unfold decValue decNum decScale
  rcases hE : (splitDot s.data).2 with _ | ⟨c, f⟩
  · simp only [hE]
    simp
  · simp only [hE]
    push_cast
    have h10 : (0 : ℚ) < 10 ^ f.length := by positivity
    field_simp

/-! ## Lemmas: double rounding -/

theorem roundNE_err (a b : Nat) (hb : 0 < b) :
    2 * a ≤ 2 * roundNE a b * b + b ∧ 2 * roundNE a b * b ≤ 2 * a + b := by
  have hdm := Nat.div_add_mod a b
  have hlt : a % b < b := Nat.mod_lt _ hb
  rw [roundNE]
  by_cases hcond : b < 2 * (a % b) ∨ (2 * (a % b) = b ∧ (a / b) % 2 = 1)
  · rw [if_pos hcond]
    have hble : b ≤ 2 * (a % b) := by rcases hcond with h | ⟨h, _⟩ <;> omega
    have e1 : 2 * (a / b + 1) * b = 2 * (b * (a / b)) + 2 * b := by ring
    rw [e1]
    omega
  · rw [if_neg hcond]
    push_neg at hcond
    have hble : 2 * (a % b) ≤ b := hcond.1
    have e2 : 2 * (a / b) * b = 2 * (b * (a / b)) := by ring
    rw [e2]
    omega

theorem bitLenAux_zero (fuel : Nat) : bitLenAux fuel 0 = 0 := by
  cases fuel with
  | zero => rfl
  | succ f => simp [bitLenAux]

theorem bitLenAux_spec : ∀ fuel n : Nat, 1 ≤ n → n ≤ fuel →
    2 ^ (bitLenAux fuel n - 1) ≤ n ∧ n < 2 ^ bitLenAux fuel n := by
  intro fuel
  induction fuel with
  | zero => intro n h1 h2; omega
  | succ f ih =>
    intro n h1 h2
    rw [bitLenAux, if_neg (by omega : ¬ n = 0)]
    by_cases hn1 : n = 1
    · subst hn1
      rw [show (1 : Nat) / 2 = 0 from rfl, bitLenAux_zero]
      norm_num
    · have hd1 : 1 ≤ n / 2 := by omega
      have hdf : n / 2 ≤ f := by omega
      obtain ⟨ha, hb⟩ := ih (n / 2) hd1 hdf
      set B := bitLenAux f (n / 2) with hBdef
      have hB1 : 1 ≤ B := by
        by_contra hc
        push_neg at hc
        have hB0 : B = 0 := by omega
        rw [hB0, pow_zero] at hb
        omega
      constructor
      · rw [show B + 1 - 1 = B from by omega]
        have h2B : 2 ^ B = 2 * 2 ^ (B - 1) := by
          rw [← pow_succ']
          congr 1
          omega
        rw [h2B]
        omega
      · have h2B : 2 ^ (B + 1) = 2 * 2 ^ B := by rw [pow_succ]; ring
        rw [h2B]
        omega

theorem bitLen_spec (n : Nat) (h : 1 ≤ n) :
    2 ^ (bitLen n - 1) ≤ n ∧ n < 2 ^ bitLen n :=
  bitLenAux_spec n n h le_rfl

theorem bitLen_pos (n : Nat) (h : 1 ≤ n) : 1 ≤ bitLen n := by
  rcases bitLen_spec n h with ⟨_, h2⟩
  by_contra hc
  push_neg at hc
  have h0 : bitLen n = 0 := by omega
  rw [h0, pow_zero] at h2
  omega

theorem roundDouble_small (n : Nat) (h : n < 2 ^ 53) : roundDouble n = some n := by
  rw [roundDouble, if_pos h]

set_option maxRecDepth 8000 in
theorem jsPow10_le22 (d : Nat) (hd : d ≤ 22) : jsPow10 d = some (10 ^ d) := by
  interval_cases d <;> decide

theorem formatTokenAmount_le22 (q d : Nat) (hd : d ≤ 22) :
    formatTokenAmount q d = some (formatTokenAmountWith q (10 ^ d) d) := by
  by_cases h0 : d = 0
  · subst h0
    rw [formatTokenAmount, if_pos rfl, formatWith_den_one]
  · rw [formatTokenAmount, if_neg h0, jsPow10_le22 d hd]
    rfl

theorem cast_two_pow (k : Nat) : ((2 ^ k : Nat) : ℚ) = (2 : ℚ) ^ (k : Int) := by
  rw [zpow_natCast]
  push_cast
  ring

theorem two_zpow_pos (u : Int) : (0 : ℚ) < (2 : ℚ) ^ u := zpow_pos (by norm_num) u

theorem two_zpow_toNat (u : Int) (hu : 0 ≤ u) :
    ((2 ^ u.toNat : Nat) : ℚ) = (2 : ℚ) ^ u := by
  rw [cast_two_pow, Int.toNat_of_nonneg hu]

theorem zpow_sub_add (u v : Int) : (2 : ℚ) ^ (u - v) * (2 : ℚ) ^ v = (2 : ℚ) ^ u := by
  rw [← zpow_add₀ (by norm_num : (2 : ℚ) ≠ 0)]
  congr 1
  omega

theorem flExp_spec (n d : Nat) (hn : 1 ≤ n) :
    (2 : ℚ) ^ flExp n d ≤ (n : ℚ) / 10 ^ d
      ∧ (n : ℚ) / 10 ^ d < (2 : ℚ) ^ (flExp n d + 1) := by
  have h10 : (0 : ℚ) < (10 : ℚ) ^ d := by positivity
  have hd1 : 1 ≤ 10 ^ d := Nat.one_le_pow _ _ (by norm_num)
  obtain ⟨hn1, hn2⟩ := bitLen_spec n hn
  obtain ⟨hd1a, hd2a⟩ := bitLen_spec (10 ^ d) hd1
  have hbn := bitLen_pos n hn
  have hbd := bitLen_pos (10 ^ d) hd1
  set bn := bitLen n with hbn_def
  set bd := bitLen (10 ^ d) with hbd_def
  have qn1 : (2 : ℚ) ^ ((bn : Int) - 1) ≤ (n : ℚ) := by
    have hcast : ((bn - 1 : Nat) : Int) = (bn : Int) - 1 := by omega
    rw [← hcast, ← cast_two_pow]
    exact_mod_cast hn1
  have qn2 : (n : ℚ) < (2 : ℚ) ^ (bn : Int) := by
    rw [← cast_two_pow]
    exact_mod_cast hn2
  have qd1 : (2 : ℚ) ^ ((bd : Int) - 1) ≤ (10 : ℚ) ^ d := by
    have hcast : ((bd - 1 : Nat) : Int) = (bd : Int) - 1 := by omega
    rw [← hcast, ← cast_two_pow]
    exact_mod_cast hd1a
  have qd2 : (10 : ℚ) ^ d < (2 : ℚ) ^ (bd : Int) := by
    rw [← cast_two_pow]
    exact_mod_cast hd2a
  set e0 : Int := (bn : Int) - bd with he0
  have hupper : (n : ℚ) / 10 ^ d < (2 : ℚ) ^ (e0 + 1) := by
    rw [div_lt_iff₀ h10]
    calc (n : ℚ) < (2 : ℚ) ^ (bn : Int) := qn2
    _ = (2 : ℚ) ^ (e0 + 1) * (2 : ℚ) ^ ((bd : Int) - 1) := by
        rw [← zpow_add₀ (by norm_num : (2 : ℚ) ≠ 0)]
        congr 1
        omega
    _ ≤ (2 : ℚ) ^ (e0 + 1) * (10 : ℚ) ^ d :=
        mul_le_mul_of_nonneg_left qd1 (le_of_lt (two_zpow_pos _))
  have hlower : (2 : ℚ) ^ (e0 - 1) ≤ (n : ℚ) / 10 ^ d := by
    rw [le_div_iff₀ h10]
    calc (2 : ℚ) ^ (e0 - 1) * (10 : ℚ) ^ d
        ≤ (2 : ℚ) ^ (e0 - 1) * (2 : ℚ) ^ (bd : Int) :=
        mul_le_mul_of_nonneg_left (le_of_lt qd2) (le_of_lt (two_zpow_pos _))
    _ = (2 : ℚ) ^ ((bn : Int) - 1) := by
        rw [← zpow_add₀ (by norm_num : (2 : ℚ) ≠ 0)]
        congr 1
        omega
    _ ≤ (n : ℚ) := qn1
  have htest_pos : 0 ≤ e0 →
      ((2 : ℚ) ^ e0 ≤ (n : ℚ) / 10 ^ d ↔ 2 ^ e0.toNat * 10 ^ d ≤ n) := by
    intro he
    rw [le_div_iff₀ h10, ← two_zpow_toNat e0 he]
    constructor
    · intro h; exact_mod_cast h
    · intro h; exact_mod_cast h
  have htest_neg : e0 < 0 →
      ((2 : ℚ) ^ e0 ≤ (n : ℚ) / 10 ^ d ↔ 10 ^ d ≤ n * 2 ^ (-e0).toNat) := by
    intro he
    have hpos : (0 : ℚ) < (2 : ℚ) ^ (-e0) := two_zpow_pos _
    rw [le_div_iff₀ h10, ← mul_le_mul_left hpos]
    have hsimp : (2 : ℚ) ^ (-e0) * ((2 : ℚ) ^ e0 * (10 : ℚ) ^ d) = (10 : ℚ) ^ d := by
      rw [← mul_assoc, ← zpow_add₀ (by norm_num : (2 : ℚ) ≠ 0)]
      simp
    rw [hsimp, ← two_zpow_toNat (-e0) (by omega), mul_comm]
    constructor
    · intro h; exact_mod_cast h
    · intro h; exact_mod_cast h
  rw [show flExp n d = if 0 ≤ e0 then (if 2 ^ e0.toNat * 10 ^ d ≤ n then e0 else e0 - 1)
      else (if 10 ^ d ≤ n * 2 ^ (-e0).toNat then e0 else e0 - 1) from rfl]
  by_cases hsign : 0 ≤ e0
  · rw [if_pos hsign]
    by_cases htest : 2 ^ e0.toNat * 10 ^ d ≤ n
    · rw [if_pos htest]
      exact ⟨(htest_pos hsign).mpr htest, hupper⟩
    · rw [if_neg htest]
      refine ⟨hlower, ?_⟩
      have hx : ¬ (2 : ℚ) ^ e0 ≤ (n : ℚ) / 10 ^ d := fun h => htest ((htest_pos hsign).mp h)
      push_neg at hx
      rw [sub_add_cancel]
      exact hx
  · rw [if_neg hsign]
    push_neg at hsign
    by_cases htest : 10 ^ d ≤ n * 2 ^ (-e0).toNat
    · rw [if_pos htest]
      exact ⟨(htest_neg hsign).mpr htest, hupper⟩
    · rw [if_neg htest]
      refine ⟨hlower, ?_⟩
      have hx : ¬ (2 : ℚ) ^ e0 ≤ (n : ℚ) / 10 ^ d := fun h => htest ((htest_neg hsign).mp h)
      push_neg at hx
      rw [sub_add_cancel]
      exact hx

set_option maxRecDepth 8000 in
theorem flRat_approx (n d : Nat) (hn : 1 ≤ n)
    (hlo : (2 : ℚ) ^ (-(1022 : Int)) ≤ (n : ℚ) / 10 ^ d)
    (hhi : (n : ℚ) / 10 ^ d < (2 : ℚ) ^ (1023 : Int)) :
    ∃ r : Nat, ∃ u : Int, flRat n d = some (r, u)
      ∧ dval r u ≤ (n : ℚ) / 10 ^ d + (2 : ℚ) ^ u / 2
      ∧ (n : ℚ) / 10 ^ d ≤ dval r u + (2 : ℚ) ^ u / 2
      ∧ (2 : ℚ) ^ u * 2 ^ 52 ≤ (n : ℚ) / 10 ^ d := by
  have h10 : (0 : ℚ) < (10 : ℚ) ^ d := by positivity
  obtain ⟨he1, he2⟩ := flExp_spec n d hn
  set e : Int := flExp n d with he
  have hege : -1022 ≤ e := by
    have h1 : (2 : ℚ) ^ (-(1022 : Int)) < (2 : ℚ) ^ (e + 1) := lt_of_le_of_lt hlo he2
    by_contra hcon
    push_neg at hcon
    have h2 : (e + 1 : Int) ≤ -1022 := by omega
    have h3 : (2 : ℚ) ^ (e + 1) ≤ (2 : ℚ) ^ (-(1022 : Int)) :=
      zpow_le_zpow_right₀ (by norm_num) h2
    linarith
  have hemax : max (e - 52) (-1074) = e - 52 := max_eq_left (by omega)
  set u : Int := e - 52 with hu
  have hupow : (2 : ℚ) ^ u * 2 ^ 52 ≤ (n : ℚ) / 10 ^ d := by
    calc (2 : ℚ) ^ u * 2 ^ 52 = (2 : ℚ) ^ u * (2 : ℚ) ^ ((52 : Nat) : Int) := by
          rw [zpow_natCast]
    _ = (2 : ℚ) ^ e := by
          rw [← zpow_add₀ (by norm_num : (2 : ℚ) ≠ 0)]
          congr 1
          omega
    _ ≤ (n : ℚ) / 10 ^ d := he1
  have hupos := two_zpow_pos u
  have hn0 : ¬ n = 0 := by omega
  rw [flRat, if_neg hn0, ← he, hemax]
  by_cases hsign : 0 ≤ u
  · set b : Nat := 10 ^ d * 2 ^ u.toNat with hbdef
    have hbpos : 0 < b := by positivity
    obtain ⟨hr1, hr2⟩ := roundNE_err n b hbpos
    set r : Nat := roundNE n b with hrdef
    have hbq : ((b : Nat) : ℚ) = (10 : ℚ) ^ d * (2 : ℚ) ^ u := by
      rw [hbdef]
      push_cast
      rw [← zpow_natCast (2 : ℚ) u.toNat, Int.toNat_of_nonneg hsign]
    have hq1 : 2 * (n : ℚ) ≤ 2 * r * ((10 : ℚ) ^ d * (2 : ℚ) ^ u) + (10 : ℚ) ^ d * (2 : ℚ) ^ u := by
      rw [← hbq]
      exact_mod_cast hr1
    have hq2 : 2 * (r : ℚ) * ((10 : ℚ) ^ d * (2 : ℚ) ^ u) ≤ 2 * n + (10 : ℚ) ^ d * (2 : ℚ) ^ u := by
      rw [← hbq]
      exact_mod_cast hr2
    have ht1 : dval r u ≤ (n : ℚ) / 10 ^ d + (2 : ℚ) ^ u / 2 := by
      rw [dval, show (n : ℚ) / (10 : ℚ) ^ d + (2 : ℚ) ^ u / 2
            = ((n : ℚ) + (10 : ℚ) ^ d * (2 : ℚ) ^ u / 2) / (10 : ℚ) ^ d from by
          field_simp
          ring, le_div_iff₀ h10]
      nlinarith [hq2]
    have ht2 : (n : ℚ) / 10 ^ d ≤ dval r u + (2 : ℚ) ^ u / 2 := by
      rw [dval, show (r : ℚ) * (2 : ℚ) ^ u + (2 : ℚ) ^ u / 2
            = ((r : ℚ) * ((10 : ℚ) ^ d * (2 : ℚ) ^ u) + (10 : ℚ) ^ d * (2 : ℚ) ^ u / 2)
                / (10 : ℚ) ^ d from by
          field_simp
          ring, div_le_div_iff₀ h10 h10]
      nlinarith [hq1]
    have hxpos : (0 : ℚ) < (n : ℚ) / 10 ^ d := lt_of_lt_of_le (two_zpow_pos _) hlo
    have hule : (2 : ℚ) ^ u ≤ (n : ℚ) / 10 ^ d := by nlinarith [hupow, hupos]
    have hdle : (r : ℚ) * (2 : ℚ) ^ u ≤ 2 * ((n : ℚ) / 10 ^ d) := by
      have hd1 := ht1
      rw [dval] at hd1
      linarith
    have hlt : 2 * ((n : ℚ) / 10 ^ d) < (2 : ℚ) ^ (1024 : Int) := by
      have h2 : (2 : ℚ) ^ (1024 : Int) = 2 * (2 : ℚ) ^ (1023 : Int) := by
        rw [show (1024 : Int) = 1 + 1023 from by norm_num,
          zpow_add₀ (by norm_num : (2 : ℚ) ≠ 0)]
        norm_num
      rw [h2]
      linarith
    have hov : ¬ 2 ^ 1024 ≤ r * 2 ^ u.toNat := by
      intro hcon
      have hconq : (2 : ℚ) ^ (1024 : Int) ≤ (r : ℚ) * (2 : ℚ) ^ u := by
        have hc2 := (Nat.cast_le (α := ℚ)).mpr hcon
        push_cast at hc2
        rw [← zpow_natCast (2 : ℚ) u.toNat, Int.toNat_of_nonneg hsign] at hc2
        have h1024 : (2 : ℚ) ^ (1024 : Int) = (2 : ℚ) ^ (1024 : Nat) := by
          rw [← zpow_natCast (2 : ℚ) 1024]
          norm_num
        rw [h1024]
        exact hc2
      linarith only [hconq, hdle, hlt]
    rw [flAt, if_pos hsign, if_neg hov]
    exact ⟨r, u, rfl, ht1, ht2, hupow⟩
  · push_neg at hsign
    set k : Nat := (-u).toNat with hkdef
    have hkq : ((2 ^ k : Nat) : ℚ) = (2 : ℚ) ^ (-u) := by
      rw [cast_two_pow, hkdef, Int.toNat_of_nonneg (by omega)]
    obtain ⟨hr1, hr2⟩ := roundNE_err (n * 2 ^ k) (10 ^ d) (by positivity)
    set r : Nat := roundNE (n * 2 ^ k) (10 ^ d) with hrdef
    have hKU : (2 : ℚ) ^ (-u) * (2 : ℚ) ^ u = 1 := by
      rw [← zpow_add₀ (by norm_num : (2 : ℚ) ≠ 0)]
      simp
    have hKpos := two_zpow_pos (-u)
    have hq1 : 2 * ((n : ℚ) * (2 : ℚ) ^ (-u)) ≤ 2 * r * (10 : ℚ) ^ d + (10 : ℚ) ^ d := by
      rw [← hkq]
      exact_mod_cast hr1
    have hq2 : 2 * (r : ℚ) * (10 : ℚ) ^ d ≤ 2 * ((n : ℚ) * (2 : ℚ) ^ (-u)) + (10 : ℚ) ^ d := by
      rw [← hkq]
      exact_mod_cast hr2
    have hKT : (0 : ℚ) < (2 : ℚ) ^ (-u) * (10 : ℚ) ^ d := mul_pos hKpos h10
    have ht1 : dval r u ≤ (n : ℚ) / 10 ^ d + (2 : ℚ) ^ u / 2 := by
      rw [dval, ← mul_le_mul_right hKT]
      have hL : (r : ℚ) * (2 : ℚ) ^ u * ((2 : ℚ) ^ (-u) * (10 : ℚ) ^ d)
          = (r : ℚ) * (10 : ℚ) ^ d * ((2 : ℚ) ^ (-u) * (2 : ℚ) ^ u) := by ring
      have hR : ((n : ℚ) / 10 ^ d + (2 : ℚ) ^ u / 2) * ((2 : ℚ) ^ (-u) * (10 : ℚ) ^ d)
          = (n : ℚ) * (2 : ℚ) ^ (-u) + ((2 : ℚ) ^ (-u) * (2 : ℚ) ^ u) * (10 : ℚ) ^ d / 2 := by
        field_simp
        ring
      rw [hL, hR, hKU]
      linarith
    have ht2 : (n : ℚ) / 10 ^ d ≤ dval r u + (2 : ℚ) ^ u / 2 := by
      rw [dval, ← mul_le_mul_right hKT]
      have hL : ((n : ℚ) / 10 ^ d) * ((2 : ℚ) ^ (-u) * (10 : ℚ) ^ d)
          = (n : ℚ) * (2 : ℚ) ^ (-u) * (((10 : ℚ) ^ d) / ((10 : ℚ) ^ d)) := by ring
      have hR : ((r : ℚ) * (2 : ℚ) ^ u + (2 : ℚ) ^ u / 2) * ((2 : ℚ) ^ (-u) * (10 : ℚ) ^ d)
          = ((2 : ℚ) ^ (-u) * (2 : ℚ) ^ u) * ((r : ℚ) * (10 : ℚ) ^ d + (10 : ℚ) ^ d / 2) := by
        ring
      rw [hL, hR, hKU, div_self (ne_of_gt h10)]
      linarith
    have hxpos : (0 : ℚ) < (n : ℚ) / 10 ^ d := lt_of_lt_of_le (two_zpow_pos _) hlo
    have hule : (2 : ℚ) ^ u ≤ (n : ℚ) / 10 ^ d := by nlinarith [hupow, hupos]
    have hdle : (r : ℚ) * (2 : ℚ) ^ u ≤ 2 * ((n : ℚ) / 10 ^ d) := by
      have hd1 := ht1
      rw [dval] at hd1
      linarith
    have hlt : 2 * ((n : ℚ) / 10 ^ d) < (2 : ℚ) ^ (1024 : Int) := by
      have h2 : (2 : ℚ) ^ (1024 : Int) = 2 * (2 : ℚ) ^ (1023 : Int) := by
        rw [show (1024 : Int) = 1 + 1023 from by norm_num,
          zpow_add₀ (by norm_num : (2 : ℚ) ≠ 0)]
        norm_num
      rw [h2]
      linarith
    have hov : ¬ 2 ^ 1024 * 2 ^ k ≤ r := by
      intro hcon
      have hconq : (2 : ℚ) ^ (1024 : Int) * (2 : ℚ) ^ (-u) ≤ (r : ℚ) := by
        have hc2 := (Nat.cast_le (α := ℚ)).mpr hcon
        push_cast at hc2
        rw [← zpow_natCast (2 : ℚ) k, hkdef, Int.toNat_of_nonneg (by omega)] at hc2
        have h1024 : (2 : ℚ) ^ (1024 : Int) = (2 : ℚ) ^ (1024 : Nat) := by
          rw [← zpow_natCast (2 : ℚ) 1024]
          norm_num
        rw [h1024]
        exact hc2
      have hrval : (2 : ℚ) ^ (1024 : Int) ≤ (r : ℚ) * (2 : ℚ) ^ u := by
        have step := mul_le_mul_of_nonneg_right hconq (le_of_lt hupos)
        calc (2 : ℚ) ^ (1024 : Int)
            = (2 : ℚ) ^ (1024 : Int) * ((2 : ℚ) ^ (-u) * (2 : ℚ) ^ u) := by rw [hKU]; ring
        _ = (2 : ℚ) ^ (1024 : Int) * (2 : ℚ) ^ (-u) * (2 : ℚ) ^ u := by ring
        _ ≤ (r : ℚ) * (2 : ℚ) ^ u := step
      linarith only [hrval, hdle, hlt]
    rw [flAt, if_neg (by omega : ¬ (0 : Int) ≤ u), if_neg hov]
    exact ⟨r, u, rfl, ht1, ht2, hupow⟩

theorem dleB_none_right (a : Option (Nat × Int)) : dleB a none = true := by
  cases a <;> rfl

theorem dleB_none_left (b : Nat × Int) : dleB none (some b) = false := rfl

theorem dleB_some_iff (a b : Nat × Int) :
    dleB (some a) (some b) = true ↔ dval a.1 a.2 ≤ dval b.1 b.2 := by
  obtain ⟨m1, u1⟩ := a
  obtain ⟨m2, u2⟩ := b
  show (if u1 ≤ u2 then decide (m1 ≤ m2 * 2 ^ (u2 - u1).toNat)
        else decide (m1 * 2 ^ (u1 - u2).toNat ≤ m2)) = true ↔ _
  by_cases h : u1 ≤ u2
  · rw [if_pos h, decide_eq_true_eq]
    show _ ↔ dval m1 u1 ≤ dval m2 u2
    rw [dval, dval]
    constructor
    · intro hle
      have hq : (m1 : ℚ) ≤ (m2 : ℚ) * (2 : ℚ) ^ ((u2 - u1).toNat : Nat) := by
        exact_mod_cast hle
      rw [← zpow_natCast (2 : ℚ), Int.toNat_of_nonneg (by omega : (0 : Int) ≤ u2 - u1)] at hq
      calc (m1 : ℚ) * (2 : ℚ) ^ u1
          ≤ (m2 : ℚ) * (2 : ℚ) ^ (u2 - u1) * (2 : ℚ) ^ u1 :=
            mul_le_mul_of_nonneg_right hq (le_of_lt (two_zpow_pos u1))
      _ = (m2 : ℚ) * (2 : ℚ) ^ u2 := by rw [mul_assoc, zpow_sub_add]
    · intro hle
      have h2 : (m2 : ℚ) * (2 : ℚ) ^ u2 = (m2 : ℚ) * (2 : ℚ) ^ (u2 - u1) * (2 : ℚ) ^ u1 := by
        rw [mul_assoc, zpow_sub_add]
      rw [h2] at hle
      have hq := (mul_le_mul_right (two_zpow_pos u1)).mp hle
      rw [← Int.toNat_of_nonneg (by omega : (0 : Int) ≤ u2 - u1), zpow_natCast] at hq
      exact_mod_cast hq
  · rw [if_neg h, decide_eq_true_eq]
    show _ ↔ dval m1 u1 ≤ dval m2 u2
    rw [dval, dval]
    constructor
    · intro hle
      have hq : (m1 : ℚ) * (2 : ℚ) ^ ((u1 - u2).toNat : Nat) ≤ (m2 : ℚ) := by
        exact_mod_cast hle
      rw [← zpow_natCast (2 : ℚ), Int.toNat_of_nonneg (by omega : (0 : Int) ≤ u1 - u2)] at hq
      have step := mul_le_mul_of_nonneg_right hq (le_of_lt (two_zpow_pos u2))
      calc (m1 : ℚ) * (2 : ℚ) ^ u1
          = (m1 : ℚ) * (2 : ℚ) ^ (u1 - u2) * (2 : ℚ) ^ u2 := by rw [mul_assoc, zpow_sub_add]
      _ ≤ (m2 : ℚ) * (2 : ℚ) ^ u2 := step
    · intro hle
      have h2 : (m1 : ℚ) * (2 : ℚ) ^ u1 = (m1 : ℚ) * (2 : ℚ) ^ (u1 - u2) * (2 : ℚ) ^ u2 := by
        rw [mul_assoc, zpow_sub_add]
      rw [h2] at hle
      have hq := (mul_le_mul_right (two_zpow_pos u2)).mp hle
      rw [← Int.toNat_of_nonneg (by omega : (0 : Int) ≤ u1 - u2), zpow_natCast] at hq
      exact_mod_cast hq

instance : IsTotal TokenHolder holderDescOrder := by
  constructor
  intro a b
  unfold holderDescOrder
  cases ha : parseFloatRep a.quantity with
  | none =>
    left
    exact dleB_none_right _
  | some pa =>
    cases hb : parseFloatRep b.quantity with
    | none =>
      right
      exact dleB_none_right _
    | some pb =>
      rcases le_total (dval pb.1 pb.2) (dval pa.1 pa.2) with h | h
      · left
        exact (dleB_some_iff pb pa).mpr h
      · right
        exact (dleB_some_iff pa pb).mpr h

instance : IsTrans TokenHolder holderDescOrder := by
  constructor
  intro a b c hab hbc
  unfold holderDescOrder at hab hbc ⊢
  cases ha : parseFloatRep a.quantity with
  | none => exact dleB_none_right _
  | some pa =>
    cases hb : parseFloatRep b.quantity with
    | none =>
      rw [ha, hb, dleB_none_left] at hab
      exact absurd hab (by simp)
    | some pb =>
      cases hc : parseFloatRep c.quantity with
      | none =>
        rw [hb, hc, dleB_none_left] at hbc
        exact absurd hbc (by simp)
      | some pc =>
        rw [ha, hb] at hab
        rw [hb, hc] at hbc
        exact (dleB_some_iff pc pa).mpr
          (le_trans ((dleB_some_iff pc pb).mp hbc) ((dleB_some_iff pb pa).mp hab))

set_option maxRecDepth 8000 in
theorem flRat_strict (n1 d1 n2 d2 t1 t2 D : Nat) (hD : D ≤ 22)
    (ht : t1 < t2) (ht2 : t2 < 2 ^ 52)
    (hv1 : (n1 : ℚ) / 10 ^ d1 = (t1 : ℚ) / 10 ^ D)
    (hv2 : (n2 : ℚ) / 10 ^ d2 = (t2 : ℚ) / 10 ^ D) :
    dleB (flRat n2 d2) (flRat n1 d1) = false := by
  have h10D : (0 : ℚ) < (10 : ℚ) ^ D := by positivity
  have h10d1 : (0 : ℚ) < (10 : ℚ) ^ d1 := by positivity
  have h10d2 : (0 : ℚ) < (10 : ℚ) ^ d2 := by positivity
  have h2z : (2 : ℚ) ^ (1022 : Int) = ((2 ^ 1022 : Nat) : ℚ) := by
    rw [cast_two_pow]
    norm_num
  have hfloor : (2 : ℚ) ^ (-(1022 : Int)) ≤ 1 / (10 : ℚ) ^ 22 := by
    rw [le_div_iff₀ (by positivity : (0 : ℚ) < (10 : ℚ) ^ 22)]
    have hle : (10 : ℚ) ^ 22 ≤ (2 : ℚ) ^ (1022 : Int) := by
      rw [h2z]
      have hstep : (10 : Nat) ^ 22 ≤ 2 ^ 1022 := by
        calc (10 : Nat) ^ 22 ≤ (2 ^ 4) ^ 22 := Nat.pow_le_pow_left (by norm_num) 22
        _ = 2 ^ 88 := by rw [← pow_mul]
        _ ≤ 2 ^ 1022 := Nat.pow_le_pow_right (by norm_num) (by norm_num)
      exact_mod_cast hstep
    calc (2 : ℚ) ^ (-(1022 : Int)) * (10 : ℚ) ^ 22
        ≤ (2 : ℚ) ^ (-(1022 : Int)) * (2 : ℚ) ^ (1022 : Int) :=
        mul_le_mul_of_nonneg_left hle (le_of_lt (two_zpow_pos _))
    _ = 1 := by
        rw [← zpow_add₀ (by norm_num : (2 : ℚ) ≠ 0)]
        norm_num
  have hlow : ∀ t : Nat, 1 ≤ t → (2 : ℚ) ^ (-(1022 : Int)) ≤ (t : ℚ) / 10 ^ D := by
    intro t htt
    calc (2 : ℚ) ^ (-(1022 : Int)) ≤ 1 / (10 : ℚ) ^ 22 := hfloor
    _ ≤ 1 / (10 : ℚ) ^ D :=
        one_div_le_one_div_of_le (by positivity)
          (pow_le_pow_right₀ (by norm_num : (1 : ℚ) ≤ 10) hD)
    _ ≤ (t : ℚ) / 10 ^ D := by
        gcongr
        exact_mod_cast htt
  have hhigh : ∀ t : Nat, t < 2 ^ 52 → (t : ℚ) / 10 ^ D < (2 : ℚ) ^ (1023 : Int) := by
    intro t htt
    have h1 : (t : ℚ) / 10 ^ D ≤ (t : ℚ) :=
      div_le_self (by positivity) (one_le_pow₀ (by norm_num : (1 : ℚ) ≤ 10))
    have h2 : (t : ℚ) < (2 : ℚ) ^ (1023 : Int) := by
      calc (t : ℚ) < ((2 ^ 52 : Nat) : ℚ) := by exact_mod_cast htt
      _ ≤ (2 : ℚ) ^ (1023 : Int) := by
          rw [cast_two_pow]
          exact zpow_le_zpow_right₀ (by norm_num) (by norm_num)
    linarith
  have hn2 : 1 ≤ n2 := by
    by_contra hc
    push_neg at hc
    have h0 : n2 = 0 := by omega
    have hz : (t2 : ℚ) / 10 ^ D = 0 := by
      rw [← hv2, h0]
      simp
    field_simp at hz
    omega
  obtain ⟨r2, u2, hfl2, hb1, hb2, hb3⟩ := flRat_approx n2 d2 hn2
    (by rw [hv2]; exact hlow t2 (by omega))
    (by rw [hv2]; exact hhigh t2 ht2)
  rw [hv2] at hb1 hb2 hb3
  by_cases ht1z : t1 = 0
  · subst ht1z
    have hn1z : n1 = 0 := by
      have hz : (n1 : ℚ) / 10 ^ d1 = 0 := by
        rw [hv1]
        simp
      field_simp at hz
      exact_mod_cast hz
    have hfl1 : flRat n1 d1 = some (0, 0) := by
      rw [flRat, if_pos hn1z]
    have hx2pos : (0 : ℚ) < (t2 : ℚ) / 10 ^ D :=
      lt_of_lt_of_le (two_zpow_pos _) (hlow t2 (by omega))
    have h2u : (2 : ℚ) ^ u2 ≤ (t2 : ℚ) / 10 ^ D := by
      nlinarith [hb3, two_zpow_pos u2]
    have hpos : 0 < dval r2 u2 := by
      rw [dval]
      rw [dval] at hb2
      nlinarith [hb2, h2u, hx2pos]
    rw [hfl1, hfl2]
    cases hDD : dleB (some (r2, u2)) (some ((0 : Nat), (0 : Int))) with
    | false => rfl
    | true =>
      have hle := (dleB_some_iff (r2, u2) ((0 : Nat), (0 : Int))).mp hDD
      rw [show dval (0 : Nat) (0 : Int) = 0 from by rw [dval]; simp] at hle
      rw [dval] at hpos hle
      linarith
  · have ht1 : 1 ≤ t1 := by omega
    have hn1 : 1 ≤ n1 := by
      by_contra hc
      push_neg at hc
      have h0 : n1 = 0 := by omega
      have hz : (t1 : ℚ) / 10 ^ D = 0 := by
        rw [← hv1, h0]
        simp
      field_simp at hz
      omega
    obtain ⟨r1, u1, hfl1, ha1, ha2, ha3⟩ := flRat_approx n1 d1 hn1
      (by rw [hv1]; exact hlow t1 ht1)
      (by rw [hv1]; exact hhigh t1 (lt_trans ht ht2))
    rw [hv1] at ha1 ha2 ha3
    have hx12 : (t1 : ℚ) / 10 ^ D + 1 / 10 ^ D ≤ (t2 : ℚ) / 10 ^ D := by
      rw [div_add_div_same]
      gcongr
      exact_mod_cast Nat.succ_le_of_lt ht
    have hstep1 : (t1 : ℚ) / 10 ^ D < ((2 : ℚ) ^ 52) / 10 ^ D := by
      gcongr
      exact_mod_cast lt_trans ht ht2
    have hstep2 : (t2 : ℚ) / 10 ^ D < ((2 : ℚ) ^ 52) / 10 ^ D := by
      gcongr
      exact_mod_cast ht2
    have hu1b : (2 : ℚ) ^ u1 < 1 / 10 ^ D := by
      have expand : ((2 : ℚ) ^ 52) / 10 ^ D = (2 : ℚ) ^ 52 * (1 / 10 ^ D) := by ring
      rw [expand] at hstep1
      nlinarith [ha3, hstep1]
    have hu2b : (2 : ℚ) ^ u2 < 1 / 10 ^ D := by
      have expand : ((2 : ℚ) ^ 52) / 10 ^ D = (2 : ℚ) ^ 52 * (1 / 10 ^ D) := by ring
      rw [expand] at hstep2
      nlinarith [hb3, hstep2]
    have hlt : dval r1 u1 < dval r2 u2 := by
      rw [dval] at ha1 hb2 ⊢
      rw [dval]
      linarith [ha1, hb2, hx12, hu1b, hu2b]
    rw [hfl1, hfl2]
    cases hDD : dleB (some (r2, u2)) (some (r1, u1)) with
    | false => rfl
    | true =>
      have hle := (dleB_some_iff (r2, u2) (r1, u1)).mp hDD
      rw [dval, dval] at hle hlt
      linarith


/-! ## Lemmas: holder aggregation maps -/

theorem assocGet_addToMapExact (m : List (String × Nat)) (addr k : String) (q : Nat) :
    assocGet (addToMapExact m addr q) k
      = if k = addr then some ((assocGet m addr).getD 0 + q) else assocGet m k := by
  induction m with
  | nil =>
    by_cases hk : k = addr
    · simp [addToMapExact, assocGet, hk]
    · simp [addToMapExact, assocGet, hk, Ne.symm hk]
  | cons p rest ih =>
    obtain ⟨a, x⟩ := p
    by_cases ha : a = addr
    · by_cases hk : k = addr
      · simp [addToMapExact, assocGet, ha, hk]
      · simp [addToMapExact, assocGet, ha, hk, Ne.symm hk]
    · by_cases hk : k = addr
      · subst hk
        simp [addToMapExact, assocGet, ha, Ne.symm ha, ih]
      · simp [addToMapExact, assocGet, ha, hk, ih]

theorem assocGet_isSome_iff_mem {β : Type} (m : List (String × β)) (k : String) :
    (assocGet m k).isSome ↔ k ∈ m.map Prod.fst := by
  induction m with
  | nil => simp [assocGet]
  | cons p rest ih =>
    obtain ⟨a, x⟩ := p
    by_cases ha : a = k
    · subst ha
      simp [assocGet]
    · simp [assocGet, ha, Ne.symm ha, ih]

theorem addToMap_keys (m : List (String × Nat)) (addr : String) (q : Nat) :
    (addToMapExact m addr q).map Prod.fst
      = if (assocGet m addr).isSome then m.map Prod.fst else m.map Prod.fst ++ [addr] := by
  induction m with
  | nil => simp [addToMapExact, assocGet]
  | cons p rest ih =>
    obtain ⟨a, x⟩ := p
    by_cases ha : a = addr
    · subst ha
      simp [addToMapExact, assocGet]
    · simp only [addToMapExact, if_neg ha, List.map_cons, assocGet, ih]
      by_cases hs : (assocGet rest addr).isSome
      · simp [hs, ha]
      · simp [hs, ha]

theorem addToMap_keys_nodup (m : List (String × Nat)) (addr : String) (q : Nat)
    (h : (m.map Prod.fst).Nodup) : ((addToMapExact m addr q).map Prod.fst).Nodup := by
  rw [addToMap_keys]
  by_cases hs : (assocGet m addr).isSome
  · simpa [hs] using h
  · rw [if_neg hs]
    have hnm : addr ∉ m.map Prod.fst := by
      rw [← assocGet_isSome_iff_mem]
      simpa using hs
    simp [List.nodup_append, h, hnm]

theorem assocGet_foldAsset_getD (hs : List RawHolder) (m : List (String × Nat)) (k : String) :
    (assocGet (foldAssetExact m hs) k).getD 0 = (assocGet m k).getD 0 + qtyInList k hs := by
  induction hs generalizing m with
  | nil => simp [foldAssetExact, qtyInList]
  | cons h rest ih =>
    rw [show foldAssetExact m (h :: rest) = foldAssetExact (addToMapExact m h.address h.quantity) rest from rfl]
    rw [ih, assocGet_addToMapExact]
    have hq : qtyInList k (h :: rest)
        = (if h.address = k then h.quantity else 0) + qtyInList k rest := by
      by_cases hk : h.address = k
      · simp [qtyInList, List.filter_cons, hk]
      · simp [qtyInList, List.filter_cons, hk]
    rw [hq]
    by_cases hk : k = h.address
    · subst hk
      simp
      omega
    · simp [hk, Ne.symm hk]

theorem assocGet_foldAsset_isSome (hs : List RawHolder) (m : List (String × Nat)) (k : String) :
    (assocGet (foldAssetExact m hs) k).isSome
      = ((assocGet m k).isSome || hs.any (fun h => h.address = k)) := by
  induction hs generalizing m with
  | nil => simp [foldAssetExact]
  | cons h rest ih =>
    rw [show foldAssetExact m (h :: rest) = foldAssetExact (addToMapExact m h.address h.quantity) rest from rfl]
    rw [ih, assocGet_addToMapExact]
    by_cases hk : k = h.address
    · subst hk
      simp
    · simp [hk, Ne.symm hk]

theorem foldAsset_keys_nodup (hs : List RawHolder) (m : List (String × Nat))
    (h : (m.map Prod.fst).Nodup) : ((foldAssetExact m hs).map Prod.fst).Nodup := by
  induction hs generalizing m with
  | nil => exact h
  | cons x rest ih =>
    rw [show foldAssetExact m (x :: rest) = foldAssetExact (addToMapExact m x.address x.quantity) rest from rfl]
    exact ih _ (addToMap_keys_nodup _ _ _ h)

theorem assocGet_foldAssets_getD (assets : List (List RawHolder)) (m : List (String × Nat))
    (k : String) :
    (assocGet (assets.foldl foldAssetExact m) k).getD 0 = (assocGet m k).getD 0 + totalQty assets k := by
  induction assets generalizing m with
  | nil => simp [totalQty]
  | cons hs rest ih =>
    rw [List.foldl_cons, ih, assocGet_foldAsset_getD]
    have : totalQty (hs :: rest) k = qtyInList k hs + totalQty rest k := by
      simp [totalQty]
    omega

theorem assocGet_foldAssets_isSome (assets : List (List RawHolder)) (m : List (String × Nat))
    (k : String) :
    (assocGet (assets.foldl foldAssetExact m) k).isSome
      = ((assocGet m k).isSome || assets.any (fun hs => hs.any (fun h => h.address = k))) := by
  induction assets generalizing m with
  | nil => simp
  | cons hs rest ih =>
    rw [List.foldl_cons, ih, assocGet_foldAsset_isSome]
    simp [Bool.or_assoc]

theorem foldAssets_keys_nodup (assets : List (List RawHolder)) (m : List (String × Nat))
    (h : (m.map Prod.fst).Nodup) : ((assets.foldl foldAssetExact m).map Prod.fst).Nodup := by
  induction assets generalizing m with
  | nil => exact h
  | cons hs rest ih =>
    rw [List.foldl_cons]
    exact ih _ (foldAsset_keys_nodup _ _ h)

theorem holdersMapOf_keys_nodup (assets : List (List RawHolder)) :
    ((holdersMapExact assets).map Prod.fst).Nodup :=
  foldAssets_keys_nodup assets [] (by simp)

theorem assocGet_of_mem_nodup {β : Type} (m : List (String × β))
    (hnd : (m.map Prod.fst).Nodup) (p : String × β) (hp : p ∈ m) :
    assocGet m p.1 = some p.2 := by
  induction m with
  | nil => simp at hp
  | cons q rest ih =>
    obtain ⟨a, v⟩ := q
    have hnd2 : a ∉ rest.map Prod.fst ∧ (rest.map Prod.fst).Nodup := by
      rw [List.map_cons, List.nodup_cons] at hnd
      exact hnd
    obtain ⟨hna, hnr⟩ := hnd2
    rcases List.mem_cons.mp hp with hp | hp
    · rw [hp]
      simp [assocGet]
    · have hp1 : p.1 ∈ rest.map Prod.fst := List.mem_map_of_mem Prod.fst hp
      have ha : a ≠ p.1 := fun h => hna (h ▸ hp1)
      simp only [assocGet, if_neg ha]
      exact ih hnr hp

theorem holdersMapOf_eq_foldl (assets : List (List RawHolder)) :
    holdersMapExact assets = assets.foldl foldAssetExact [] := rfl

theorem holdersMapOf_entry_val (assets : List (List RawHolder)) (p : String × Nat)
    (hp : p ∈ holdersMapExact assets) : p.2 = totalQty assets p.1 := by
  have hget := assocGet_of_mem_nodup _ (holdersMapOf_keys_nodup assets) p hp
  have hgd := assocGet_foldAssets_getD assets [] p.1
  rw [← holdersMapOf_eq_foldl, hget] at hgd
  simpa [assocGet] using hgd

theorem holdersMapOf_mem_keys (assets : List (List RawHolder)) (k : String) :
    k ∈ (holdersMapExact assets).map Prod.fst ↔ ∃ hs ∈ assets, ∃ h ∈ hs, h.address = k := by
  rw [← assocGet_isSome_iff_mem]
  have hs := assocGet_foldAssets_isSome assets [] k
  rw [← holdersMapOf_eq_foldl] at hs
  rw [show ((assocGet (holdersMapExact assets) k).isSome = true)
      = (((assocGet ([] : List (String × Nat)) k).isSome
          || assets.any fun hs => hs.any fun h => h.address = k) = true) from by rw [hs]]
  simp [assocGet]

theorem aggregateExact_perm (assets : List (List RawHolder)) (d : Nat) :
    List.Perm (aggregateExact assets d)
      ((holdersMapExact assets).map
        (fun p => ⟨p.1, formatTokenAmountWith p.2 (10 ^ d) d, []⟩)) :=
  List.perm_insertionSort holderDescOrder _

theorem aggregateExact_map_address (assets : List (List RawHolder)) (d : Nat) :
    List.Perm ((aggregateExact assets d).map TokenHolder.address)
      ((holdersMapExact assets).map Prod.fst) := by
  have h := (aggregateExact_perm assets d).map TokenHolder.address
  rw [List.map_map] at h
  exact h

theorem aggregateExact_address_nodup (assets : List (List RawHolder)) (d : Nat) :
    ((aggregateExact assets d).map TokenHolder.address).Nodup :=
  (aggregateExact_map_address assets d).nodup_iff.mpr (holdersMapOf_keys_nodup assets)

theorem aggregateExact_mem_address (assets : List (List RawHolder)) (d : Nat) (addr : String) :
    addr ∈ (aggregateExact assets d).map TokenHolder.address
      ↔ ∃ hs ∈ assets, ∃ h ∈ hs, h.address = addr := by
  rw [(aggregateExact_map_address assets d).mem_iff]
  exact holdersMapOf_mem_keys assets addr

theorem aggregateExact_quantity (assets : List (List RawHolder)) (d : Nat) (h : TokenHolder)
    (hmem : h ∈ aggregateExact assets d) :
    h.quantity = formatTokenAmountWith (totalQty assets h.address) (10 ^ d) d
      ∧ h.relatedAddresses = [] := by
  have hm : h ∈ (holdersMapExact assets).map
      (fun p => ⟨p.1, formatTokenAmountWith p.2 (10 ^ d) d, []⟩) :=
    (aggregateExact_perm assets d).mem_iff.mp hmem
  obtain ⟨p, hp, rfl⟩ := List.mem_map.mp hm
  have := holdersMapOf_entry_val assets p hp
  constructor
  · show formatTokenAmountWith p.2 (10 ^ d) d = formatTokenAmountWith (totalQty assets p.1) (10 ^ d) d
    rw [this]
  · rfl

theorem aggregateExact_sorted (assets : List (List RawHolder)) (d : Nat) :
    (aggregateExact assets d).Sorted holderDescOrder :=
  List.sorted_insertionSort holderDescOrder _

theorem aggregateExact_sorted_totalQty (assets : List (List RawHolder)) (d : Nat)
    (h52 : ∀ addr, totalQty assets addr < 2 ^ 52) (hd : d ≤ 22) :
    (aggregateExact assets d).Pairwise
      (fun a b => totalQty assets b.address ≤ totalQty assets a.address) := by
  refine List.Pairwise.imp_of_mem ?_ (aggregateExact_sorted assets d)
  intro a b ha hb hab
  by_contra hcon
  push_neg at hcon
  have hqa := (aggregateExact_quantity assets d a ha).1
  have hqb := (aggregateExact_quantity assets d b hb).1
  have hva : (decNum a.quantity : ℚ) / 10 ^ decScale a.quantity
      = (totalQty assets a.address : ℚ) / 10 ^ d := by
    rw [← decValue_eq_scaled, hqa, decValue_formatWith]
  have hvb : (decNum b.quantity : ℚ) / 10 ^ decScale b.quantity
      = (totalQty assets b.address : ℚ) / 10 ^ d := by
    rw [← decValue_eq_scaled, hqb, decValue_formatWith]
  have hfalse := flRat_strict (decNum a.quantity) (decScale a.quantity)
    (decNum b.quantity) (decScale b.quantity)
    (totalQty assets a.address) (totalQty assets b.address) d hd hcon (h52 b.address) hva hvb
  unfold holderDescOrder at hab
  rw [parseFloatRep, parseFloatRep] at hab
  rw [hab] at hfalse
  exact absurd hfalse (by simp)

/-! ## Lemmas: the double pipeline coincides with the exact one below 2^53 -/

theorem jsAdd_small (x q : Nat) (h : x + q < 2 ^ 53) :
    jsAdd (some x) (some q) = some (x + q) := by
  show roundDouble (x + q) = some (x + q)
  exact roundDouble_small _ h

theorem addToMapD_exact (m : List (String × Nat)) (addr : String) (q : Nat)
    (h : (assocGet m addr).getD 0 + q < 2 ^ 53) :
    addToMapD (m.map (fun p => (p.1, some p.2))) addr (some q)
      = (addToMapExact m addr q).map (fun p => (p.1, some p.2)) := by
  induction m with
  | nil =>
    show [(addr, jsAdd (some 0) (some q))] = [(addr, some q)]
    have hq : 0 + q < 2 ^ 53 := by
      simp [assocGet] at h
      omega
    rw [jsAdd_small 0 q hq, Nat.zero_add]
  | cons p rest ih =>
    obtain ⟨a, x⟩ := p
    by_cases ha : a = addr
    · subst ha
      have hx : (assocGet ((a, x) :: rest) a).getD 0 = x := by simp [assocGet]
      rw [hx] at h
      simp only [List.map_cons, addToMapD, addToMapExact, if_pos rfl]
      rw [jsAdd_small x q h]
      simp
    · have hg : assocGet ((a, x) :: rest) addr = assocGet rest addr := by
        simp [assocGet, ha]
      rw [hg] at h
      simp only [List.map_cons, addToMapD, addToMapExact, if_neg ha]
      rw [ih h]

theorem qtyInList_cons (addr : String) (h : RawHolder) (rest : List RawHolder) :
    qtyInList addr (h :: rest)
      = (if h.address = addr then h.quantity else 0) + qtyInList addr rest := by
  by_cases hk : h.address = addr
  · simp [qtyInList, List.filter_cons, hk]
  · simp [qtyInList, List.filter_cons, hk]

theorem foldAssetD_exact (hs : List RawHolder) (m : List (String × Nat))
    (h : ∀ k, (assocGet m k).getD 0 + qtyInList k hs < 2 ^ 53) :
    foldAssetD (m.map (fun p => (p.1, some p.2))) hs
      = (foldAssetExact m hs).map (fun p => (p.1, some p.2)) := by
  induction hs generalizing m with
  | nil => rfl
  | cons x rest ih =>
    have hself := h x.address
    rw [qtyInList_cons, if_pos rfl] at hself
    have hx : x.quantity < 2 ^ 53 := by omega
    have hm : (assocGet m x.address).getD 0 + x.quantity < 2 ^ 53 := by omega
    rw [show foldAssetD (m.map (fun p => (p.1, some p.2))) (x :: rest)
        = foldAssetD (addToMapD (m.map (fun p => (p.1, some p.2))) x.address
            (parseIntNat x.quantity)) rest from rfl]
    rw [show parseIntNat x.quantity = some x.quantity from roundDouble_small _ hx]
    rw [addToMapD_exact m x.address x.quantity hm]
    rw [show foldAssetExact m (x :: rest)
        = foldAssetExact (addToMapExact m x.address x.quantity) rest from rfl]
    apply ih
    intro k
    rw [assocGet_addToMapExact]
    by_cases hk : k = x.address
    · subst hk
      rw [if_pos rfl, Option.getD_some]
      omega
    · rw [if_neg hk]
      have hthis := h k
      have hne : ¬ x.address = k := fun hh => hk hh.symm
      rw [qtyInList_cons, if_neg hne] at hthis
      omega

theorem foldlD_exact (assets : List (List RawHolder)) (m : List (String × Nat))
    (h : ∀ k, (assocGet m k).getD 0 + totalQty assets k < 2 ^ 53) :
    assets.foldl foldAssetD (m.map (fun p => (p.1, some p.2)))
      = (assets.foldl foldAssetExact m).map (fun p => (p.1, some p.2)) := by
  induction assets generalizing m with
  | nil => rfl
  | cons hs rest ih =>
    rw [List.foldl_cons, List.foldl_cons]
    rw [foldAssetD_exact hs m (fun k => by
      have hthis := h k
      simp only [totalQty, List.map_cons, List.sum_cons] at hthis
      omega)]
    apply ih
    intro k
    rw [assocGet_foldAsset_getD]
    have hthis := h k
    simp only [totalQty, List.map_cons, List.sum_cons] at hthis
    simp only [totalQty]
    omega

theorem holdersMapD_exact (assets : List (List RawHolder))
    (h : ∀ k, totalQty assets k < 2 ^ 53) :
    holdersMapD assets = (holdersMapExact assets).map (fun p => (p.1, some p.2)) := by
  have hfold := foldlD_exact assets [] (fun k => by simpa [assocGet] using h k)
  simpa [holdersMapD, holdersMapExact] using hfold

theorem formatQuantity_small (v d : Nat) (hv : v < 2 ^ 53) (hd : d ≤ 22) :
    formatQuantity (some v) d = some (formatTokenAmountWith v (10 ^ d) d) := by
  show (jsIntString v).bind (fun n => formatTokenAmount n d) = _
  rw [jsIntString, if_pos (lt_trans hv (by norm_num : (2 : Nat) ^ 53 < 10 ^ 21))]
  rw [shortestInt, if_pos hv]
  show formatTokenAmount v d = _
  exact formatTokenAmount_le22 v d hd

theorem formatEntries_exact (m : List (String × Nat)) (d : Nat) (hd : d ≤ 22)
    (h : ∀ p ∈ m, p.2 < 2 ^ 53) :
    formatEntries (m.map (fun p => (p.1, some p.2))) d
      = some (m.map (fun p => ⟨p.1, formatTokenAmountWith p.2 (10 ^ d) d, []⟩)) := by
  induction m with
  | nil => rfl
  | cons p rest ih =>
    obtain ⟨a, v⟩ := p
    have hv : v < 2 ^ 53 := h (a, v) (by simp)
    simp only [List.map_cons]
    rw [show formatEntries ((a, some v) :: rest.map (fun p => (p.1, some p.2))) d
        = (match formatQuantity (some v) d,
              formatEntries (rest.map (fun p => (p.1, some p.2))) d with
          | some s, some l => some (⟨a, s, []⟩ :: l)
          | _, _ => none) from rfl]
    rw [formatQuantity_small v d hv hd, ih (fun q hq => h q (by simp [hq]))]

theorem aggregate_some (assets : List (List RawHolder)) (d : Nat)
    (h : ∀ addr, totalQty assets addr < 2 ^ 53) (hd : d ≤ 22) :
    aggregateHoldersForAllAssets assets d = some (aggregateExact assets d) := by
  show (formatEntries (holdersMapD assets) d).map (List.insertionSort holderDescOrder)
      = some (aggregateExact assets d)
  rw [holdersMapD_exact assets h]
  rw [formatEntries_exact _ d hd (fun p hp => by
    rw [holdersMapOf_entry_val assets p hp]
    exact h p.1)]
  rfl

theorem fetchHoldersFormat_addresses (raws : List RawHolder) (d : Nat)
    (hs : List TokenHolder) (h : fetchHoldersFormat raws d = some hs) :
    hs.map TokenHolder.address = raws.map RawHolder.address := by
  induction raws generalizing hs with
  | nil =>
    rw [show fetchHoldersFormat [] d = some [] from rfl] at h
    cases h
    rfl
  | cons x rest ih =>
    rw [show fetchHoldersFormat (x :: rest) d
        = (match formatTokenAmount x.quantity d, fetchHoldersFormat rest d with
          | some s, some l => some (⟨x.address, s, []⟩ :: l)
          | _, _ => none) from rfl] at h
    cases hA : formatTokenAmount x.quantity d with
    | none =>
      rw [hA] at h
      cases h
    | some s =>
      rw [hA] at h
      cases hB : fetchHoldersFormat rest d with
      | none =>
        rw [hB] at h
        cases h
      | some l =>
        rw [hB] at h
        cases h
        simp only [List.map_cons]
        rw [ih l hB]

theorem qtyInList_le_sum (addr : String) (hs : List RawHolder) :
    qtyInList addr hs ≤ (hs.map RawHolder.quantity).sum := by
  induction hs with
  | nil => simp [qtyInList]
  | cons x rest ih =>
    rw [qtyInList_cons]
    simp only [List.map_cons, List.sum_cons]
    by_cases hx : x.address = addr
    · rw [if_pos hx]
      omega
    · rw [if_neg hx]
      omega

theorem totalQty_le_sum (assets : List (List RawHolder)) (addr : String) :
    totalQty assets addr ≤ (assets.map (fun hs => (hs.map RawHolder.quantity).sum)).sum := by
  induction assets with
  | nil => simp [totalQty]
  | cons hs rest ih =>
    simp only [totalQty, List.map_cons, List.sum_cons] at ih ⊢
    have hq := qtyInList_le_sum addr hs
    omega

theorem findRelatedWallets_map_address (holders : List TokenHolder) (api : Api) :
    (findRelatedWallets holders api).map TokenHolder.address
      = holders.map TokenHolder.address := by
  rw [findRelatedWallets, List.map_map]
  rfl

theorem findRelatedWallets_map_quantity (holders : List TokenHolder) (api : Api) :
    (findRelatedWallets holders api).map TokenHolder.quantity
      = holders.map TokenHolder.quantity := by
  rw [findRelatedWallets, List.map_map]
  rfl

theorem findRelatedWallets_length (holders : List TokenHolder) (api : Api) :
    (findRelatedWallets holders api).length = holders.length := by
  rw [findRelatedWallets, List.length_map]

/-! ## Claim theorems: formatting, aggregation, frame -/

set_option maxRecDepth 8000 in
/-- Counterexample to C2 as stated: the divisor is the double `10 ** 23`,
which is `99999999999999991611392`, not `10 ^ 23`, so `10 ^ 23` base units at
23 decimals format to "1.00000000000000008388608" where exact division by
`10 ^ 23` would give "1"; and at 309 decimals `10 ** 309` is Infinity and
`BigInt(Infinity)` throws. -/
theorem C2_counterexample :
    formatTokenAmount (10 ^ 23) 23 = some "1.00000000000000008388608"
    ∧ formatTokenAmountWith (10 ^ 23) (10 ^ 23) 23 = "1"
    ∧ ("1.00000000000000008388608" : String) ≠ "1"
    ∧ formatTokenAmount 1 309 = none := by
  exact ⟨by decide, by decide, by decide, by decide⟩

/-- C2 (amended to `d ≤ 22`, where the double `10 ** d` is exact): for every
nonnegative integer quantity `q` and decimals `0 ≤ d ≤ 22`,
`formatTokenAmount` returns the exact decimal representation of `q / 10^d`:
its value as a decimal numeral is exactly `q / 10^d` (no rounding), the
fractional part carries no trailing zeros, and the BigInt arithmetic is
arbitrary-precision; in particular 1500 at 2 decimals formats to "15" and
1550 to "15.5". -/
theorem C2_formatTokenAmount_exact :
    (∀ q d : Nat, d ≤ 22 →
      ∃ s, formatTokenAmount q d = some s
        ∧ decValue s = (q : ℚ) / 10 ^ d ∧ noTrailingZeroFrac s)
    ∧ formatTokenAmount 1500 2 = some "15"
    ∧ formatTokenAmount 1550 2 = some "15.5" :=
  ⟨fun q d hd => ⟨formatTokenAmountWith q (10 ^ d) d, formatTokenAmount_le22 q d hd,
    decValue_formatWith q d, noTrailing_formatWith q d⟩, by decide, by decide⟩

/-- Witness for C2 at the second spec example: 1550 at 2 decimals formats to
a string whose exact decimal value is 15.5, with no trailing fractional
zero. -/
theorem C2_formatTokenAmount_witness :
    ∃ s, formatTokenAmount 1550 2 = some s
      ∧ decValue s = (1550 : ℚ) / 10 ^ 2 ∧ noTrailingZeroFrac s :=
  C2_formatTokenAmount_exact.1 1550 2 (by norm_num)

set_option maxRecDepth 8000 in
/-- Counterexample to C1 as stated: quantities pass through `parseInt` and
double addition, so a lone raw quantity of `2 ^ 53 + 1` aggregates to a
holder displaying `9007199254740992`, not the formatting of the true total
`9007199254740993`. -/
theorem C1_counterexample :
    totalQty overflowAssets "A" = 9007199254740993
    ∧ formatTokenAmount (totalQty overflowAssets "A") 0 = some "9007199254740993"
    ∧ aggregateHoldersForAllAssets overflowAssets 0
        = some [⟨"A", "9007199254740992", []⟩]
    ∧ ("9007199254740992" : String) ≠ "9007199254740993" := by
  exact ⟨by decide, by decide, by decide, by decide⟩

set_option maxRecDepth 8000 in
/-- C1 (amended with the region where double arithmetic is exact): for a
same-name multi-asset policy whose per-address totals all stay below `2^52`
and whose decimals are at most 22, aggregation succeeds and produces one
holder per address appearing under any asset, whose raw quantities are
summed across all assets before decimal formatting, and the result is sorted
in descending order of quantity (both in the parseFloat order used by the
sort and in raw summed quantity); the spec's example {A:30,B:20} under
asset1 with {A:10,C:5} under asset2 aggregates to {A:40, B:20, C:5}. -/
theorem C1_aggregation :
    (∀ (assets : List (List RawHolder)) (d : Nat),
      (∀ addr, totalQty assets addr < 2 ^ 52) → d ≤ 22 →
      ∃ res, aggregateHoldersForAllAssets assets d = some res
        ∧ (res.map TokenHolder.address).Nodup
        ∧ (∀ addr : String,
            addr ∈ res.map TokenHolder.address ↔ ∃ hs ∈ assets, ∃ h ∈ hs, h.address = addr)
        ∧ (∀ h ∈ res, formatTokenAmount (totalQty assets h.address) d = some h.quantity)
        ∧ res.Sorted holderDescOrder
        ∧ res.Pairwise (fun a b => totalQty assets b.address ≤ totalQty assets a.address))
    ∧ aggregateHoldersForAllAssets exampleAssets 0
        = some [⟨"A", "40", []⟩, ⟨"B", "20", []⟩, ⟨"C", "5", []⟩] := by
  constructor
  · intro assets d h52 hd
    refine ⟨aggregateExact assets d,
      aggregate_some assets d (fun addr => lt_trans (h52 addr) (by norm_num)) hd,
      aggregateExact_address_nodup _ _, aggregateExact_mem_address _ _, ?_,
      aggregateExact_sorted _ _, aggregateExact_sorted_totalQty assets d h52 hd⟩
    intro h hm
    rw [(aggregateExact_quantity assets d h hm).1]
    exact formatTokenAmount_le22 _ _ hd
  · decide

/-- Witness for C1 at the spec's example: the aggregation succeeds, each
address appears once, and every holder's quantity is the formatting of its
summed raw quantity. -/
theorem C1_aggregation_witness :
    ∃ res, aggregateHoldersForAllAssets exampleAssets 0 = some res
      ∧ (res.map TokenHolder.address).Nodup
      ∧ (∀ addr : String,
          addr ∈ res.map TokenHolder.address ↔ ∃ hs ∈ exampleAssets, ∃ h ∈ hs, h.address = addr)
      ∧ (∀ h ∈ res, formatTokenAmount (totalQty exampleAssets h.address) 0 = some h.quantity)
      ∧ res.Sorted holderDescOrder
      ∧ res.Pairwise
          (fun a b => totalQty exampleAssets b.address ≤ totalQty exampleAssets a.address) :=
  C1_aggregation.1 exampleAssets 0
    (fun addr => lt_of_le_of_lt (totalQty_le_sum exampleAssets addr)
      (by decide : (exampleAssets.map (fun hs => (hs.map RawHolder.quantity).sum)).sum < 2 ^ 52))
    (by norm_num)

/-- C9: findRelatedWallets returns a list of the same length, preserving
holder order, with address and quantity unchanged positionwise; only
relatedAddresses is (re)set. -/
theorem C9_findRelatedWallets_frame :
    ∀ (holders : List TokenHolder) (api : Api),
      (findRelatedWallets holders api).length = holders.length
      ∧ (findRelatedWallets holders api).map TokenHolder.address
          = holders.map TokenHolder.address
      ∧ (findRelatedWallets holders api).map TokenHolder.quantity
          = holders.map TokenHolder.quantity :=
  fun holders api => ⟨findRelatedWallets_length holders api,
    findRelatedWallets_map_address holders api, findRelatedWallets_map_quantity holders api⟩

/-- Counterexample to C8 as stated: on the single-asset path, source data
carrying address addrA twice yields a distribution in which addrA appears
twice, with the two quantities formatted separately, not merged. -/
theorem C8_counterexample :
    fetchHoldersPipeline dupRawHolders 0 apiAllFail
      = some [⟨"addrA", "30", []⟩, ⟨"addrA", "10", []⟩]
    ∧ ¬ (([⟨"addrA", "30", []⟩, ⟨"addrA", "10", []⟩] : List TokenHolder).map
          TokenHolder.address).Nodup := by
  exact ⟨by decide, by decide⟩

/-- C8 amended: whenever the aggregation path returns (in particular while
totals stay below `2^53` and decimals at most 22, where its double sums are
exact) each address appears at most once, duplicates merged by summing
before formatting; the single-asset path reproduces the fetched holder list
address-for-address, so it contains an address at most once exactly when the
source page data does. -/
theorem C8_distribution_dedup :
    (∀ (assets : List (List RawHolder)) (d : Nat),
      (∀ addr, totalQty assets addr < 2 ^ 53) → d ≤ 22 →
      ∃ res, aggregateHoldersForAllAssets assets d = some res
        ∧ (res.map TokenHolder.address).Nodup
        ∧ ∀ h ∈ res, formatTokenAmount (totalQty assets h.address) d = some h.quantity)
    ∧ (∀ (raws : List RawHolder) (d : Nat) (api : Api) (res : List TokenHolder),
        fetchHoldersPipeline raws d api = some res →
        res.map TokenHolder.address = raws.map RawHolder.address) := by
  constructor
  · intro assets d h53 hd
    refine ⟨aggregateExact assets d, aggregate_some assets d h53 hd,
      aggregateExact_address_nodup _ _, ?_⟩
    intro h hm
    rw [(aggregateExact_quantity assets d h hm).1]
    exact formatTokenAmount_le22 _ _ hd
  · intro raws d api res h
    cases hF : fetchHoldersFormat raws d with
    | none =>
      rw [show fetchHoldersPipeline raws d api
          = (fetchHoldersFormat raws d).map (fun hs => findRelatedWallets hs api) from rfl,
        hF] at h
      cases h
    | some hs =>
      rw [show fetchHoldersPipeline raws d api
          = (fetchHoldersFormat raws d).map (fun hs => findRelatedWallets hs api) from rfl,
        hF] at h
      cases h
      rw [findRelatedWallets_map_address, fetchHoldersFormat_addresses raws d hs hF]

/-- Witness for C8 (amended): the example aggregation succeeds with each
address once and the formatted sums, and the duplicated single-asset run
maps its output addresses one-to-one onto the fetched ones. -/
theorem C8_distribution_dedup_witness :
    (∃ res, aggregateHoldersForAllAssets exampleAssets 0 = some res
      ∧ (res.map TokenHolder.address).Nodup
      ∧ ∀ h ∈ res, formatTokenAmount (totalQty exampleAssets h.address) 0 = some h.quantity)
    ∧ ([⟨"addrA", "30", []⟩, ⟨"addrA", "10", []⟩] : List TokenHolder).map TokenHolder.address
        = dupRawHolders.map RawHolder.address :=
  ⟨C8_distribution_dedup.1 exampleAssets 0
      (fun addr => lt_of_le_of_lt (totalQty_le_sum exampleAssets addr)
        (by decide : (exampleAssets.map (fun hs => (hs.map RawHolder.quantity).sum)).sum < 2 ^ 53))
      (by norm_num),
    C8_distribution_dedup.2 dupRawHolders 0 apiAllFail
      [⟨"addrA", "30", []⟩, ⟨"addrA", "10", []⟩] (by decide)⟩

/-! ## Lemmas: pagination -/

theorem fetchAssetsForPolicy_nil {α : Type} :
    fetchAssetsForPolicy ([] : List (PageResult α)) = .ok [] := rfl

theorem fetchAssetsForPolicy_cons_err {α : Type} (s : Nat) (b : String)
    (rest : List (PageResult α)) :
    fetchAssetsForPolicy (PageResult.httpError s b :: rest) = .error (handleApiError s b) := rfl

theorem fetchAssetsForPolicy_cons_ok {α : Type} (p : List α) (rest : List (PageResult α)) :
    fetchAssetsForPolicy (PageResult.ok p :: rest)
      = if p.length = 0 then .ok []
        else if p.length < 100 then .ok p
        else match fetchAssetsForPolicy rest with
          | .ok l => .ok (p ++ l)
          | .error e => .error e := rfl

theorem fetchHoldersAux_nil {α : Type} (acc : List α) :
    fetchHoldersAux ([] : List (PageResult α)) acc = .ok acc := rfl

theorem fetchHoldersAux_cons_ok {α : Type} (p : List α) (rest : List (PageResult α))
    (acc : List α) :
    fetchHoldersAux (PageResult.ok p :: rest) acc
      = if 150 ≤ acc.length then .ok acc
        else if p.length = 0 then .ok acc
        else if p.length < 100 ∨ 150 ≤ (acc ++ p).length then .ok (acc ++ p)
        else fetchHoldersAux rest (acc ++ p) := rfl

theorem fetchAssets_full_short {α : Type} (full : List (List α)) (short : List α)
    (rest : List (PageResult α)) (hfull : ∀ p ∈ full, p.length = 100)
    (hshort : short.length < 100) :
    fetchAssetsForPolicy (full.map PageResult.ok ++ PageResult.ok short :: rest)
      = .ok (full.flatten ++ short) := by
  induction full with
  | nil =>
    simp only [List.map_nil, List.nil_append, List.flatten_nil]
    rw [fetchAssetsForPolicy_cons_ok]
    by_cases h0 : short.length = 0
    · have hnil : short = [] := List.length_eq_zero.mp h0
      subst hnil
      simp
    · rw [if_neg h0, if_pos hshort]
  | cons p prest ih =>
    have hp : p.length = 100 := hfull p (by simp)
    rw [List.map_cons, List.cons_append, fetchAssetsForPolicy_cons_ok,
      if_neg (by omega), if_neg (by omega),
      ih (fun x hx => hfull x (by simp [hx]))]
    simp

theorem fetchHoldersAux_ok {α : Type} (ps : List (List α)) :
    ∀ acc : List α, ∃ l, fetchHoldersAux (ps.map PageResult.ok) acc = .ok (acc ++ l)
      ∧ (∃ t, pureJoin ps = l ++ t)
      ∧ (l = pureJoin ps ∨ 150 ≤ acc.length + l.length) := by
  induction ps with
  | nil =>
    intro acc
    exact ⟨[], by simp [fetchHoldersAux_nil], ⟨[], rfl⟩, Or.inl rfl⟩
  | cons p rest ih =>
    intro acc
    by_cases hge : 150 ≤ acc.length
    · refine ⟨[], ?_, ⟨pureJoin (p :: rest), by simp⟩, Or.inr (by omega)⟩
      rw [List.map_cons, fetchHoldersAux_cons_ok, if_pos hge]
      simp
    · by_cases h0 : p.length = 0
      · refine ⟨[], ?_, ⟨[], by simp [pureJoin, h0]⟩, Or.inl (by simp [pureJoin, h0])⟩
        rw [List.map_cons, fetchHoldersAux_cons_ok, if_neg hge, if_pos h0]
        simp
      · by_cases hstop : p.length < 100 ∨ 150 ≤ (acc ++ p).length
        · refine ⟨p, ?_, ?_, ?_⟩
          · rw [List.map_cons, fetchHoldersAux_cons_ok, if_neg hge, if_neg h0, if_pos hstop]
          · by_cases hlt : p.length < 100
            · exact ⟨[], by simp [pureJoin, h0, hlt]⟩
            · refine ⟨pureJoin rest, ?_⟩
              simp [pureJoin, h0, hlt]
          · by_cases hlt : p.length < 100
            · left
              simp [pureJoin, h0, hlt]
            · right
              rcases hstop with h | h
              · exact absurd h hlt
              · rw [List.length_append] at h
                omega
        · push_neg at hstop
          obtain ⟨h100, h150⟩ := hstop
          rw [List.length_append] at h150
          have hltF : ¬ p.length < 100 := by omega
          have hcond : ¬ (p.length < 100 ∨ 150 ≤ (acc ++ p).length) := by
            rw [List.length_append]
            omega
          obtain ⟨l, hl, ⟨t, ht⟩, hdisj⟩ := ih (acc ++ p)
          have hjoin : pureJoin (p :: rest) = p ++ pureJoin rest := by
            simp [pureJoin, h0, hltF]
          refine ⟨p ++ l, ?_, ?_, ?_⟩
          · rw [List.map_cons, fetchHoldersAux_cons_ok, if_neg hge, if_neg h0, if_neg hcond,
              hl, List.append_assoc]
          · exact ⟨t, by rw [hjoin, ht, List.append_assoc]⟩
          · rcases hdisj with h | h
            · left
              rw [hjoin, h]
            · right
              rw [List.length_append] at h
              rw [List.length_append]
              omega

theorem fetchHoldersForAsset_pure {α : Type} (ps : List (List α)) :
    fetchHoldersForAsset (ps.map PageResult.ok) = .ok ((pureJoin ps).take 150) := by
  obtain ⟨l, hl, ⟨t, ht⟩, hdisj⟩ := fetchHoldersAux_ok ps []
  rw [fetchHoldersForAsset, hl]
  simp only [List.nil_append, Except.map]
  rcases hdisj with h | h
  · rw [h]
  · rw [ht, List.take_append_of_le_length (by simpa using h)]

/-! ## Claim theorems: pagination and error policy -/

/-- Counterexample to C5 as stated: for successful pages of sizes
[100, 100, 37], fetchHoldersForAsset returns 150 records (the top-150 cap),
not the 237-record concatenation. -/
theorem C5_counterexample :
    fetchHoldersForAsset pages237 = .ok (List.replicate 150 (0 : Nat))
    ∧ (List.replicate 150 (0 : Nat)).length = 150
    ∧ ¬ (List.replicate 150 (0 : Nat)).length = 237 := by
  refine ⟨by decide, by decide, by decide⟩

/-- C5 amended: on successful pages, fetchAssetsForPolicy returns exactly the
concatenation of the pages in request order up to and including the first
short or empty page (so a first page of size 0 yields the empty accumulation),
while fetchHoldersForAsset returns that concatenation truncated to the first
150 records, also stopping early once 150 records have accumulated. -/
theorem C5_pagination :
    (∀ (α : Type) (full : List (List α)) (short : List α) (rest : List (PageResult α)),
      (∀ p ∈ full, p.length = 100) → short.length < 100 →
      fetchAssetsForPolicy (full.map PageResult.ok ++ PageResult.ok short :: rest)
        = .ok (full.flatten ++ short))
    ∧ (∀ (α : Type) (ps : List (List α)),
        fetchHoldersForAsset (ps.map PageResult.ok) = .ok ((pureJoin ps).take 150)) :=
  ⟨fun _ full short rest hfull hshort => fetchAssets_full_short full short rest hfull hshort,
    fun _ ps => fetchHoldersForAsset_pure ps⟩

/-- Witness for C5 (amended) on pages [100, 37]: the asset fetcher returns the
full 137-record concatenation and stops at the short page. -/
theorem C5_pagination_witness :
    fetchAssetsForPolicy
        ([List.replicate 100 (0 : Nat)].map PageResult.ok
          ++ PageResult.ok (List.replicate 37 (0 : Nat)) :: [])
      = .ok ([List.replicate 100 (0 : Nat)].flatten ++ List.replicate 37 (0 : Nat)) :=
  C5_pagination.1 Nat [List.replicate 100 0] (List.replicate 37 0) []
    (by intro p hp; simp at hp; simp [hp]) (by simp)

/-- Counterexample to C6 as stated: a failing page after a successful
100-record page makes fetchAssetsForPolicy return the classified error — the
accumulated records are discarded, not returned to the caller. -/
theorem C6_counterexample :
    fetchAssetsForPolicy pagesWithError = .error (.generic 500)
    ∧ (Except.error (ApiError.generic 500) : Except ApiError (List Nat))
        ≠ .ok (List.replicate 100 0) := by
  refine ⟨by decide, by decide⟩

/-- C6 amended: a non-success status is classified into a typed failure
(404 not-found, 403 access-denied with the response body, otherwise generic)
and the fetch loop halts there — but the classified failure propagates to the
caller as a thrown error, discarding the records accumulated so far. -/
theorem C6_error_classification :
    (∀ (α : Type) (full : List (List α)) (s : Nat) (b : String) (rest : List (PageResult α)),
      (∀ p ∈ full, p.length = 100) →
      fetchAssetsForPolicy (full.map PageResult.ok ++ PageResult.httpError s b :: rest)
        = .error (handleApiError s b))
    ∧ (∀ b, handleApiError 404 b = .notFound)
    ∧ (∀ b, handleApiError 403 b = .accessDenied b)
    ∧ (∀ s b, s ≠ 404 → s ≠ 403 → handleApiError s b = .generic s) := by
  refine ⟨?_, fun b => rfl, fun b => rfl, fun s b h4 h3 => ?_⟩
  · intro α full s b rest hfull
    induction full with
    | nil => simp [fetchAssetsForPolicy_cons_err]
    | cons p prest ih =>
      have hp : p.length = 100 := hfull p (by simp)
      rw [List.map_cons, List.cons_append, fetchAssetsForPolicy_cons_ok,
        if_neg (by omega), if_neg (by omega),
        ih (fun x hx => hfull x (by simp [hx]))]
  · rw [handleApiError, if_neg h4, if_neg h3]

/-- Witness for C6 (amended): a 500 error after one full page yields the
generic typed failure. -/
theorem C6_error_classification_witness :
    fetchAssetsForPolicy
        ([List.replicate 100 (0 : Nat)].map PageResult.ok
          ++ PageResult.httpError 500 "server error" :: [])
      = .error (handleApiError 500 "server error")
    ∧ handleApiError 500 "oops" = .generic 500 :=
  ⟨C6_error_classification.1 Nat [List.replicate 100 0] 500 "server error" []
      (by intro p hp; simp at hp; simp [hp]),
    C6_error_classification.2.2.2 500 "oops" (by decide) (by decide)⟩

/-! ## Lemmas: rate limiter -/

theorem refillTokens_queue (s : RLState) (now : Nat) : (refillTokens s now).queue = s.queue := by
  simp only [refillTokens]
  split <;> rfl

theorem refillTokens_executed (s : RLState) (now : Nat) :
    (refillTokens s now).executed = s.executed := by
  simp only [refillTokens]
  split <;> rfl

theorem refillTokens_nextId (s : RLState) (now : Nat) :
    (refillTokens s now).nextId = s.nextId := by
  simp only [refillTokens]
  split <;> rfl

theorem refillTokens_tokens_le (s : RLState) (now : Nat) (h : s.tokens ≤ BURST_LIMIT) :
    (refillTokens s now).tokens ≤ BURST_LIMIT := by
  simp only [refillTokens]
  split
  · exact min_le_left _ _
  · exact h

theorem rl_invariant (s : RLState) (h : RLReachable s) :
    s.tokens ≤ BURST_LIMIT ∧ s.executed ++ s.queue = List.range s.nextId := by
  induction h with
  | start t0 => exact ⟨le_rfl, by simp [RLState.start]⟩
  | step s s2 hreach hstep ih =>
    obtain ⟨iht, ihq⟩ := ih
    cases hstep with
    | schedule =>
      refine ⟨iht, ?_⟩
      simp only
      rw [← List.append_assoc, ihq]
      simp [List.range_succ]
    | exec now hnow op rest hq ht =>
      have hqe := refillTokens_queue s now
      have hex := refillTokens_executed s now
      have hni := refillTokens_nextId s now
      refine ⟨?_, ?_⟩
      · have hle := refillTokens_tokens_le s now iht
        simp only
        omega
      · simp only [hex, hni]
        have hsq : s.queue = op :: rest := by rw [← hqe, hq]
        rw [List.append_assoc]
        rw [show [op] ++ rest = op :: rest from rfl, ← hsq, ihq]
    | wait now hnow =>
      exact ⟨refillTokens_tokens_le s now iht,
        by rw [refillTokens_executed, refillTokens_queue, refillTokens_nextId]; exact ihq⟩

theorem rl_exec_consumes (s s2 : RLState) (hstep : RLStep s s2)
    (hgrow : s.executed.length < s2.executed.length) :
    ∃ now op, s.lastRefill ≤ now ∧ 0 < (refillTokens s now).tokens
      ∧ s2.tokens + 1 = (refillTokens s now).tokens
      ∧ s2.executed = s.executed ++ [op] ∧ s.queue = op :: s2.queue := by
  cases hstep with
  | schedule =>
    simp only at hgrow
    omega
  | exec now hnow op rest hq ht =>
    refine ⟨now, op, hnow, ht, ?_, ?_, ?_⟩
    · simp only
      omega
    · simp only [refillTokens_executed]
    · simp only
      rw [← refillTokens_queue s now, hq]
  | wait now hnow =>
    rw [refillTokens_executed] at hgrow
    omega

/-! ## Claim theorem: rate limiter -/

/-- C3: in every reachable limiter state the permit count never exceeds the
burst ceiling and the executed operations followed by the queued ones are
exactly the scheduled operation ids in submission order (FIFO); moreover any
step that executes an operation consumes exactly one permit from the refreshed
bucket (which must be positive) and executes precisely the queue head. -/
theorem C3_rate_limiter :
    (∀ s : RLState, RLReachable s →
      s.tokens ≤ BURST_LIMIT ∧ s.executed ++ s.queue = List.range s.nextId)
    ∧ (∀ s s2 : RLState, RLStep s s2 → s.executed.length < s2.executed.length →
        ∃ now op, s.lastRefill ≤ now ∧ 0 < (refillTokens s now).tokens
          ∧ s2.tokens + 1 = (refillTokens s now).tokens
          ∧ s2.executed = s.executed ++ [op] ∧ s.queue = op :: s2.queue) :=
  ⟨rl_invariant, rl_exec_consumes⟩

/-- Witness for C3: the fresh limiter is within the ceiling with an empty
trace, and a concrete execution step from state rlBefore consumes one permit
to run queued operation 0. -/
theorem C3_rate_limiter_witness :
    ((RLState.start 0).tokens ≤ BURST_LIMIT
      ∧ (RLState.start 0).executed ++ (RLState.start 0).queue = List.range (RLState.start 0).nextId)
    ∧ (∃ now op, rlBefore.lastRefill ≤ now ∧ 0 < (refillTokens rlBefore now).tokens
        ∧ rlAfter.tokens + 1 = (refillTokens rlBefore now).tokens
        ∧ rlAfter.executed = rlBefore.executed ++ [op]
        ∧ rlBefore.queue = op :: rlAfter.queue) := by
  constructor
  · exact C3_rate_limiter.1 (RLState.start 0) (RLReachable.start 0)
  · refine C3_rate_limiter.2 rlBefore rlAfter ?_ (by decide)
    have hstep := RLStep.exec rlBefore 0 (by decide) 0 [] (by decide) (by decide)
    have heq : ({ refillTokens rlBefore 0 with
        tokens := (refillTokens rlBefore 0).tokens - 1,
        queue := ([] : List Nat),
        executed := (refillTokens rlBefore 0).executed ++ [0] } : RLState) = rlAfter := by
      decide
    rw [heq] at hstep
    exact hstep

/-! ## Lemmas: related-wallet resolver -/

theorem assocGet_mapSet_eq {β : Type} (m : List (String × β)) (k : String) (v : β) :
    assocGet (mapSet m k v) k = some v := by
  induction m with
  | nil => simp [mapSet, assocGet]
  | cons p rest ih =>
    obtain ⟨a, x⟩ := p
    by_cases ha : a = k
    · simp [mapSet, ha, assocGet]
    · simp [mapSet, ha, assocGet, ih]

theorem assocGet_mapSet_ne {β : Type} (m : List (String × β)) (k k2 : String) (v : β)
    (h : k2 ≠ k) : assocGet (mapSet m k v) k2 = assocGet m k2 := by
  induction m with
  | nil => simp [mapSet, assocGet, h, Ne.symm h]
  | cons p rest ih =>
    obtain ⟨a, x⟩ := p
    by_cases ha : a = k
    · subst ha
      simp [mapSet, assocGet, Ne.symm h, ih]
    · by_cases ha2 : a = k2
      · simp [mapSet, ha, assocGet, ha2, h]
      · simp [mapSet, ha, assocGet, ha2, ih]

theorem mem_mapSet {β : Type} (m : List (String × β)) (k : String) (v : β)
    (p : String × β) (h : p ∈ mapSet m k v) : p = (k, v) ∨ p ∈ m := by
  induction m with
  | nil => simpa [mapSet] using h
  | cons q rest ih =>
    obtain ⟨a, x⟩ := q
    by_cases ha : a = k
    · rw [mapSet, if_pos ha] at h
      rcases List.mem_cons.mp h with h | h
      · exact Or.inl h
      · exact Or.inr (List.mem_cons_of_mem _ h)
    · rw [mapSet, if_neg ha] at h
      rcases List.mem_cons.mp h with h | h
      · exact Or.inr (by rw [h]; simp)
      · rcases ih h with h | h
        · exact Or.inl h
        · exact Or.inr (List.mem_cons_of_mem _ h)

theorem mem_dedupKeepFirst (l : List String) (a : String) :
    a ∈ dedupKeepFirst l ↔ a ∈ l := by
  induction l with
  | nil => simp [dedupKeepFirst]
  | cons b rest ih =>
    simp only [dedupKeepFirst, List.mem_cons]
    constructor
    · rintro (rfl | h)
      · exact Or.inl rfl
      · exact Or.inr (ih.mp (List.mem_of_mem_filter h))
    · rintro (rfl | h)
      · exact Or.inl rfl
      · by_cases hab : a = b
        · exact Or.inl hab
        · right
          rw [List.mem_filter]
          exact ⟨ih.mpr h, by simpa using hab⟩

theorem mem_relevant (holders : List TokenHolder) (l : List String) (a : String) :
    a ∈ relevantAddressesOf holders l ↔ a ∈ l ∧ ∃ h ∈ holders, h.address = a := by
  rw [relevantAddressesOf, List.mem_filter, mem_dedupKeepFirst]
  simp [List.any_eq_true]

theorem one_lt_length_of_two_mem {a b : String} {l : List String}
    (ha : a ∈ l) (hb : b ∈ l) (hab : a ≠ b) : 1 < l.length := by
  match l with
  | [] => simp at ha
  | [x] =>
    simp at ha hb
    exact absurd (ha.trans hb.symm) hab
  | x :: y :: rest =>
    simp only [List.length_cons]
    omega

theorem mem_processHolder (holders : List TokenHolder) (api : Api)
    (m : List (String × List String)) (h : TokenHolder) (p : String × List String)
    (hp : p ∈ processHolder holders api m h) :
    p ∈ m ∨ ∃ s l, api.addressLookup h.address = some (some s)
      ∧ api.accountLookup s = some l
      ∧ p = (s, relevantAddressesOf holders l)
      ∧ 1 < (relevantAddressesOf holders l).length := by
  cases hA : api.addressLookup h.address with
  | none =>
    simp only [processHolder, hA] at hp
    exact Or.inl hp
  | some o =>
    cases o with
    | none =>
      simp only [processHolder, hA] at hp
      exact Or.inl hp
    | some s =>
      cases hB : api.accountLookup s with
      | none =>
        simp only [processHolder, hA, hB] at hp
        exact Or.inl hp
      | some l =>
        simp only [processHolder, hA, hB] at hp
        by_cases hlen : 1 < (relevantAddressesOf holders l).length
        · rw [if_pos hlen] at hp
          rcases mem_mapSet _ _ _ _ hp with h2 | h2
          · exact Or.inr ⟨s, l, rfl, hB, h2, hlen⟩
          · exact Or.inl h2
        · rw [if_neg hlen] at hp
          exact Or.inl hp

theorem buildStakeMap_entries (holders : List TokenHolder) (api : Api) :
    ∀ p ∈ buildStakeMap holders api,
      ∃ l, api.accountLookup p.1 = some l ∧ p.2 = relevantAddressesOf holders l
        ∧ 1 < p.2.length := by
  have main : ∀ (hs : List TokenHolder) (m : List (String × List String)),
      (∀ p ∈ m, ∃ l, api.accountLookup p.1 = some l ∧ p.2 = relevantAddressesOf holders l
        ∧ 1 < p.2.length) →
      ∀ p ∈ hs.foldl (processHolder holders api) m,
        ∃ l, api.accountLookup p.1 = some l ∧ p.2 = relevantAddressesOf holders l
          ∧ 1 < p.2.length := by
    intro hs
    induction hs with
    | nil => intro m hm p hp; exact hm p hp
    | cons h rest ih =>
      intro m hm p hp
      rw [List.foldl_cons] at hp
      refine ih _ ?_ p hp
      intro q hq
      rcases mem_processHolder holders api m h q hq with hq2 | ⟨s, l, _, hB, rfl, hlen⟩
      · exact hm q hq2
      · exact ⟨l, hB, rfl, hlen⟩
  exact main holders [] (by simp)

theorem processHolder_preserves (holders : List TokenHolder) (api : Api)
    (m : List (String × List String)) (h : TokenHolder) (S : String) (L : List String)
    (hacc : api.accountLookup S = some L)
    (hm : assocGet m S = some (relevantAddressesOf holders L)) :
    assocGet (processHolder holders api m h) S = some (relevantAddressesOf holders L) := by
  cases hA : api.addressLookup h.address with
  | none => simp only [processHolder, hA]; exact hm
  | some o =>
    cases o with
    | none => simp only [processHolder, hA]; exact hm
    | some s =>
      cases hB : api.accountLookup s with
      | none => simp only [processHolder, hA, hB]; exact hm
      | some l =>
        simp only [processHolder, hA, hB]
        by_cases hlen : 1 < (relevantAddressesOf holders l).length
        · rw [if_pos hlen]
          by_cases hsS : s = S
          · subst hsS
            have hl : l = L := by
              rw [hB] at hacc
              exact Option.some.inj hacc
            rw [hl, assocGet_mapSet_eq]
          · rw [assocGet_mapSet_ne _ _ _ _ (Ne.symm hsS)]
            exact hm
        · rw [if_neg hlen]
          exact hm

theorem foldl_preserves (holders : List TokenHolder) (api : Api) (S : String) (L : List String)
    (hacc : api.accountLookup S = some L) :
    ∀ (hs : List TokenHolder) (m : List (String × List String)),
      assocGet m S = some (relevantAddressesOf holders L) →
      assocGet (hs.foldl (processHolder holders api) m) S
        = some (relevantAddressesOf holders L) := by
  intro hs
  induction hs with
  | nil => intro m hm; exact hm
  | cons h rest ih =>
    intro m hm
    rw [List.foldl_cons]
    exact ih _ (processHolder_preserves holders api m h S L hacc hm)

theorem foldl_establish (holders : List TokenHolder) (api : Api) (S : String) (L : List String)
    (hacc : api.accountLookup S = some L)
    (hlen : 1 < (relevantAddressesOf holders L).length) :
    ∀ (hs : List TokenHolder) (m : List (String × List String)),
      (∃ h ∈ hs, api.addressLookup h.address = some (some S)) →
      assocGet (hs.foldl (processHolder holders api) m) S
        = some (relevantAddressesOf holders L) := by
  intro hs
  induction hs with
  | nil =>
    intro m hex
    simp at hex
  | cons h rest ih =>
    intro m hex
    rw [List.foldl_cons]
    by_cases hA : api.addressLookup h.address = some (some S)
    · have hstep : assocGet (processHolder holders api m h) S
          = some (relevantAddressesOf holders L) := by
        simp only [processHolder, hA, hacc]
        rw [if_pos hlen, assocGet_mapSet_eq]
      exact foldl_preserves holders api S L hacc rest _ hstep
    · rcases hex with ⟨h2, hmem, haddr⟩
      rcases List.mem_cons.mp hmem with rfl | hmem2
      · exact absurd haddr hA
      · exact ih _ ⟨h2, hmem2, haddr⟩

theorem buildStakeMap_get (holders : List TokenHolder) (api : Api) (S A : String)
    (L : List String) (hAmem : ∃ h ∈ holders, h.address = A)
    (haddr : api.addressLookup A = some (some S))
    (hacc : api.accountLookup S = some L)
    (hlen : 1 < (relevantAddressesOf holders L).length) :
    assocGet (buildStakeMap holders api) S = some (relevantAddressesOf holders L) := by
  rw [buildStakeMap]
  refine foldl_establish holders api S L hacc hlen holders [] ?_
  rcases hAmem with ⟨h, hmem, haddr2⟩
  exact ⟨h, hmem, by rw [haddr2, haddr]⟩

theorem assocGet_some_mem {β : Type} (m : List (String × β)) (k : String) (v : β)
    (h : assocGet m k = some v) : (k, v) ∈ m := by
  induction m with
  | nil => simp [assocGet] at h
  | cons p rest ih =>
    obtain ⟨a, x⟩ := p
    by_cases ha : a = k
    · subst ha
      rw [assocGet, if_pos rfl] at h
      have : x = v := Option.some.inj h
      rw [← this]
      simp
    · rw [assocGet, if_neg ha] at h
      exact List.mem_cons_of_mem _ (ih h)

theorem relGroupAux_cons (g : List String) (addr : String) (rest : List String)
    (rw2 : List (String × List String)) :
    relGroupAux g (addr :: rest) rw2
      = relGroupAux g rest
          (if (g.filter (fun b => b ≠ addr)).isEmpty then rw2
           else mapSet rw2 addr (g.filter (fun b => b ≠ addr))) := rfl

theorem relGroupAux_get_not_mem (g : List String) (x : String) :
    ∀ (l : List String) (rw2 : List (String × List String)), x ∉ l →
      assocGet (relGroupAux g l rw2) x = assocGet rw2 x := by
  intro l
  induction l with
  | nil => intro rw2 _; rfl
  | cons addr rest ih =>
    intro rw2 h
    have hxa : x ≠ addr := fun hx => h (by rw [hx]; simp)
    have hxr : x ∉ rest := fun hx => h (List.mem_cons_of_mem _ hx)
    rw [relGroupAux_cons, ih _ hxr]
    by_cases hie : (g.filter (fun b => b ≠ addr)).isEmpty
    · rw [if_pos hie]
    · rw [if_neg hie, assocGet_mapSet_ne _ _ _ _ hxa]

theorem relGroupAux_get_mem (g : List String) (x : String) :
    ∀ (l : List String) (rw2 : List (String × List String)), x ∈ l →
      g.filter (fun b => b ≠ x) ≠ [] →
      assocGet (relGroupAux g l rw2) x = some (g.filter (fun b => b ≠ x)) := by
  intro l
  induction l with
  | nil => intro rw2 h _; simp at h
  | cons addr rest ih =>
    intro rw2 hmem hne
    by_cases hxr : x ∈ rest
    · rw [relGroupAux_cons]
      exact ih _ hxr hne
    · have hx : x = addr := by
        rcases List.mem_cons.mp hmem with h | h
        · exact h
        · exact absurd h hxr
      subst hx
      have hie : ¬ ((g.filter (fun b => b ≠ x)).isEmpty = true) := by
        rcases hfE : g.filter (fun b => b ≠ x) with _ | ⟨a, as⟩
        · exact absurd hfE hne
        · simp
      rw [relGroupAux_cons, if_neg hie, relGroupAux_get_not_mem g x rest _ hxr,
        assocGet_mapSet_eq]

theorem mem_relGroupAux (g : List String) :
    ∀ (l : List String) (rw2 : List (String × List String)) (p : String × List String),
      p ∈ relGroupAux g l rw2 →
      p ∈ rw2 ∨ (p.1 ∈ l ∧ p.2 = g.filter (fun b => b ≠ p.1)) := by
  intro l
  induction l with
  | nil => intro rw2 p hp; exact Or.inl hp
  | cons addr rest ih =>
    intro rw2 p hp
    rw [relGroupAux_cons] at hp
    rcases ih _ p hp with h | ⟨h1, h2⟩
    · by_cases hie : (g.filter (fun b => b ≠ addr)).isEmpty
      · rw [if_pos hie] at h
        exact Or.inl h
      · rw [if_neg hie] at h
        rcases mem_mapSet _ _ _ _ h with h2 | h2
        · right
          rw [h2]
          exact ⟨by simp, rfl⟩
        · exact Or.inl h2
    · exact Or.inr ⟨List.mem_cons_of_mem _ h1, h2⟩

theorem setRelatedForGroup_eq (rw2 : List (String × List String)) (g : List String) :
    setRelatedForGroup rw2 g = relGroupAux g g rw2 := rfl

theorem mem_buildRelatedWallets (sm : List (String × List String)) (p : String × List String)
    (hp : p ∈ buildRelatedWallets sm) :
    ∃ s g, (s, g) ∈ sm ∧ p.1 ∈ g ∧ p.2 = g.filter (fun b => b ≠ p.1) := by
  rw [buildRelatedWallets] at hp
  have main : ∀ (sms : List (String × List String)) (rw2 : List (String × List String)),
      (∀ kv ∈ sms, kv ∈ sm) →
      (∀ q ∈ rw2, ∃ s g, (s, g) ∈ sm ∧ q.1 ∈ g ∧ q.2 = g.filter (fun b => b ≠ q.1)) →
      ∀ q ∈ sms.foldl (fun rw3 kv => setRelatedForGroup rw3 kv.2) rw2,
        ∃ s g, (s, g) ∈ sm ∧ q.1 ∈ g ∧ q.2 = g.filter (fun b => b ≠ q.1) := by
    intro sms
    induction sms with
    | nil => intro rw2 _ hbase q hq; exact hbase q hq
    | cons kv rest ih =>
      intro rw2 hsub hbase q hq
      rw [List.foldl_cons] at hq
      refine ih _ (fun kv2 hkv2 => hsub kv2 (List.mem_cons_of_mem _ hkv2)) ?_ q hq
      intro r hr
      rw [setRelatedForGroup_eq] at hr
      rcases mem_relGroupAux kv.2 kv.2 rw2 r hr with h | ⟨h1, h2⟩
      · exact hbase r h
      · exact ⟨kv.1, kv.2, hsub kv (by simp), h1, h2⟩
  exact main sm [] (fun kv hkv => hkv) (by simp) p hp

theorem relFold_get (A : String) (relS : List String) :
    ∀ (sms : List (String × List String)) (rw2 : List (String × List String)),
      (∀ p ∈ sms, A ∈ p.2 → p.2 = relS) →
      ((∃ s, (s, relS) ∈ sms ∧ A ∈ relS)
        ∨ assocGet rw2 A = some (relS.filter (fun b => b ≠ A))) →
      relS.filter (fun b => b ≠ A) ≠ [] →
      assocGet (sms.foldl (fun rw3 kv => setRelatedForGroup rw3 kv.2) rw2) A
        = some (relS.filter (fun b => b ≠ A)) := by
  intro sms
  induction sms with
  | nil =>
    intro rw2 _ hdisj _
    rcases hdisj with ⟨s, hmem, _⟩ | h
    · simp at hmem
    · exact h
  | cons kv rest ih =>
    intro rw2 huniq hdisj hfne
    rw [List.foldl_cons]
    by_cases hA : A ∈ kv.2
    · have hg : kv.2 = relS := huniq kv (by simp) hA
      have hget : assocGet (setRelatedForGroup rw2 kv.2) A
          = some (relS.filter (fun b => b ≠ A)) := by
        rw [setRelatedForGroup_eq, hg]
        exact relGroupAux_get_mem relS A relS rw2 (hg ▸ hA) hfne
      exact ih _ (fun p hp hap => huniq p (List.mem_cons_of_mem _ hp) hap)
        (Or.inr hget) hfne
    · have h2 : assocGet (setRelatedForGroup rw2 kv.2) A = assocGet rw2 A := by
        rw [setRelatedForGroup_eq]
        exact relGroupAux_get_not_mem _ _ _ _ hA
      rcases hdisj with ⟨s, hmem, hAr⟩ | hget
      · rcases List.mem_cons.mp hmem with hh | hh
        · exfalso
          apply hA
          rw [show kv.2 = relS from by rw [← hh]]
          exact hAr
        · exact ih _ (fun p hp hap => huniq p (List.mem_cons_of_mem _ hp) hap)
            (Or.inl ⟨s, hh, hAr⟩) hfne
      · exact ih _ (fun p hp hap => huniq p (List.mem_cons_of_mem _ hp) hap)
          (Or.inr (h2.trans hget)) hfne

theorem related_pair (holders : List TokenHolder) (api : Api) (A B S : String)
    (L : List String)
    (hAmem : ∃ h ∈ holders, h.address = A) (hBmem : ∃ h ∈ holders, h.address = B)
    (hAB : A ≠ B)
    (haddrA : api.addressLookup A = some (some S))
    (hacc : api.accountLookup S = some L)
    (hAL : A ∈ L) (hBL : B ∈ L)
    (hiso : ∀ s2 l2, s2 ≠ S → api.accountLookup s2 = some l2 → A ∉ l2) :
    B ∈ (assocGet (buildRelatedWallets (buildStakeMap holders api)) A).getD [] := by
  have hArel : A ∈ relevantAddressesOf holders L := (mem_relevant _ _ _).mpr ⟨hAL, hAmem⟩
  have hBrel : B ∈ relevantAddressesOf holders L := (mem_relevant _ _ _).mpr ⟨hBL, hBmem⟩
  have hlen : 1 < (relevantAddressesOf holders L).length :=
    one_lt_length_of_two_mem hArel hBrel hAB
  have hsm := buildStakeMap_get holders api S A L hAmem haddrA hacc hlen
  have hmemS : (S, relevantAddressesOf holders L) ∈ buildStakeMap holders api :=
    assocGet_some_mem _ _ _ hsm
  have huniq : ∀ p ∈ buildStakeMap holders api,
      A ∈ p.2 → p.2 = relevantAddressesOf holders L := by
    intro p hp hA2
    obtain ⟨l, haccp, hval, _⟩ := buildStakeMap_entries holders api p hp
    have hA_l : A ∈ l := by
      rw [hval] at hA2
      exact ((mem_relevant _ _ _).mp hA2).1
    by_cases hps : p.1 = S
    · rw [hps] at haccp
      rw [haccp] at hacc
      rw [hval, Option.some.inj hacc]
    · exact absurd hA_l (hiso p.1 l hps haccp)
  have hBfilter : B ∈ (relevantAddressesOf holders L).filter (fun b => b ≠ A) := by
    rw [List.mem_filter]
    exact ⟨hBrel, by simpa using Ne.symm hAB⟩
  have hfne : (relevantAddressesOf holders L).filter (fun b => b ≠ A) ≠ [] := by
    intro h0
    rw [h0] at hBfilter
    simp at hBfilter
  have hfin : assocGet (buildRelatedWallets (buildStakeMap holders api)) A
      = some ((relevantAddressesOf holders L).filter (fun b => b ≠ A)) := by
    rw [buildRelatedWallets]
    exact relFold_get A (relevantAddressesOf holders L) (buildStakeMap holders api) []
      huniq (Or.inl ⟨S, hmemS, hArel⟩) hfne
  rw [hfin]
  exact hBfilter

/-! ## Claim theorems: related wallets and dispatch -/

/-- C4: the related-address annotation is a symmetric, irreflexive relation
restricted to the input distribution: two distinct holders whose lookups agree
on a stake key (the account list of which is consistent and not shadowed by
any other account list) receive each other; no holder receives itself; and an
address absent from the distribution appears in no holder's related set. -/
theorem C4_related_relation :
    (∀ (holders : List TokenHolder) (api : Api) (A B S : String) (L : List String),
      (∃ h ∈ holders, h.address = A) → (∃ h ∈ holders, h.address = B) → A ≠ B →
      api.addressLookup A = some (some S) → api.addressLookup B = some (some S) →
      api.accountLookup S = some L → A ∈ L → B ∈ L →
      (∀ s2 l2, s2 ≠ S → api.accountLookup s2 = some l2 → A ∉ l2 ∧ B ∉ l2) →
      ∀ h ∈ findRelatedWallets holders api,
        (h.address = A → B ∈ h.relatedAddresses) ∧ (h.address = B → A ∈ h.relatedAddresses))
    ∧ (∀ (holders : List TokenHolder) (api : Api),
        ∀ h ∈ findRelatedWallets holders api, h.address ∉ h.relatedAddresses)
    ∧ (∀ (holders : List TokenHolder) (api : Api) (C : String),
        (∀ h ∈ holders, h.address ≠ C) →
        ∀ h ∈ findRelatedWallets holders api, C ∉ h.relatedAddresses) := by
  refine ⟨?_, ?_, ?_⟩
  · intro holders api A B S L hAmem hBmem hAB haddrA haddrB hacc hAL hBL hiso h hm
    simp only [findRelatedWallets] at hm
    obtain ⟨h0, hh0, rfl⟩ := List.mem_map.mp hm
    constructor
    · intro hA
      have haddr0 : h0.address = A := hA
      show B ∈ (assocGet (buildRelatedWallets (buildStakeMap holders api)) h0.address).getD []
      rw [haddr0]
      exact related_pair holders api A B S L hAmem hBmem hAB haddrA hacc hAL hBL
        (fun s2 l2 hs ha2 => ((hiso s2 l2 hs ha2).1))
    · intro hB
      have haddr0 : h0.address = B := hB
      show A ∈ (assocGet (buildRelatedWallets (buildStakeMap holders api)) h0.address).getD []
      rw [haddr0]
      exact related_pair holders api B A S L hBmem hAmem (Ne.symm hAB) haddrB hacc hBL hAL
        (fun s2 l2 hs ha2 => ((hiso s2 l2 hs ha2).2))
  · intro holders api h hm
    simp only [findRelatedWallets] at hm
    obtain ⟨h0, hh0, rfl⟩ := List.mem_map.mp hm
    show h0.address
      ∉ (assocGet (buildRelatedWallets (buildStakeMap holders api)) h0.address).getD []
    cases hG : assocGet (buildRelatedWallets (buildStakeMap holders api)) h0.address with
    | none => simp
    | some v =>
      simp only [Option.getD_some]
      intro hmem2
      have hpm := assocGet_some_mem _ _ _ hG
      obtain ⟨s, g, _, _, hval⟩ := mem_buildRelatedWallets _ _ hpm
      have hval2 : v = g.filter (fun b => b ≠ h0.address) := hval
      rw [hval2, List.mem_filter] at hmem2
      simp at hmem2
  · intro holders api C hC h hm
    simp only [findRelatedWallets] at hm
    obtain ⟨h0, hh0, rfl⟩ := List.mem_map.mp hm
    show C ∉ (assocGet (buildRelatedWallets (buildStakeMap holders api)) h0.address).getD []
    cases hG : assocGet (buildRelatedWallets (buildStakeMap holders api)) h0.address with
    | none => simp
    | some v =>
      simp only [Option.getD_some]
      intro hmem2
      have hpm := assocGet_some_mem _ _ _ hG
      obtain ⟨s, g, hsm, _, hval⟩ := mem_buildRelatedWallets _ _ hpm
      have hval2 : v = g.filter (fun b => b ≠ h0.address) := hval
      rw [hval2, List.mem_filter] at hmem2
      have hCg : C ∈ g := hmem2.1
      obtain ⟨l, _, hgval, _⟩ := buildStakeMap_entries holders api (s, g) hsm
      have hCrel : C ∈ relevantAddressesOf holders l := by
        rw [show relevantAddressesOf holders l = g from hgval.symm]
        exact hCg
      obtain ⟨_, hw, hwaddr⟩ := ((mem_relevant holders l C).mp hCrel).2
      exact hC _ hw hwaddr

/-- Witness for C4 on a concrete distribution: addrA and addrB share stakeS
(whose account also lists addrC, not a holder) and addrD has no stake key;
addrA's entry relates to addrB, not to itself, and not to addrC. -/
theorem C4_related_relation_witness :
    "addrB" ∈ (⟨"addrA", "30", ["addrB"]⟩ : TokenHolder).relatedAddresses
    ∧ (⟨"addrA", "30", ["addrB"]⟩ : TokenHolder).address
        ∉ (⟨"addrA", "30", ["addrB"]⟩ : TokenHolder).relatedAddresses
    ∧ "addrC" ∉ (⟨"addrA", "30", ["addrB"]⟩ : TokenHolder).relatedAddresses := by
  refine ⟨?_, ?_, ?_⟩
  · exact (C4_related_relation.1 holdersABD apiShared "addrA" "addrB" "stakeS"
      ["addrA", "addrB", "addrC"] (by decide) (by decide) (by decide) (by decide)
      (by decide) (by decide) (by decide) (by decide)
      (by
        intro s2 l2 hs hacc2
        simp [apiShared, hs] at hacc2)
      ⟨"addrA", "30", ["addrB"]⟩ (by decide)).1 rfl
  · exact C4_related_relation.2.1 holdersABD apiShared ⟨"addrA", "30", ["addrB"]⟩ (by decide)
  · exact C4_related_relation.2.2 holdersABD apiShared "addrC" (by decide)
      ⟨"addrA", "30", ["addrB"]⟩ (by decide)

/-- Counterexample to C7 as stated: holder addrA's address lookup fails, yet
addrA still receives a non-empty related set, because holder addrB's
successful lookup exposes the shared stake group containing addrA. -/
theorem C7_counterexample :
    apiOneFailure.addressLookup "addrA" = none
    ∧ (findRelatedWallets holdersAB apiOneFailure).map
        (fun h => (h.address, h.relatedAddresses))
      = [("addrA", ["addrB"]), ("addrB", ["addrA"])]
    ∧ ["addrB"] ≠ ([] : List String) := by
  refine ⟨by decide, by decide, by decide⟩

/-- C7 amended: failures are contained — the resolver always returns one
annotated holder per input holder, in order, with addresses preserved, and a
holder whose own lookups fail contributes no stake group; such a holder
receives an empty related set provided its address appears in no successful
account lookup (otherwise another holder's lookup may still annotate it). -/
theorem C7_failure_containment :
    (∀ (holders : List TokenHolder) (api : Api),
      (findRelatedWallets holders api).length = holders.length
      ∧ (findRelatedWallets holders api).map TokenHolder.address
          = holders.map TokenHolder.address)
    ∧ (∀ (holders : List TokenHolder) (api : Api), ∀ h ∈ findRelatedWallets holders api,
        (api.addressLookup h.address = none
          ∨ (∃ s, api.addressLookup h.address = some (some s)
              ∧ api.accountLookup s = none)) →
        (∀ s l, api.accountLookup s = some l → h.address ∉ l) →
        h.relatedAddresses = []) := by
  refine ⟨fun holders api => ⟨findRelatedWallets_length holders api,
    findRelatedWallets_map_address holders api⟩, ?_⟩
  intro holders api h hm _ hnc
  simp only [findRelatedWallets] at hm
  obtain ⟨h0, hh0, rfl⟩ := List.mem_map.mp hm
  show (assocGet (buildRelatedWallets (buildStakeMap holders api)) h0.address).getD [] = []
  cases hG : assocGet (buildRelatedWallets (buildStakeMap holders api)) h0.address with
  | none => simp
  | some v =>
    exfalso
    have hpm := assocGet_some_mem _ _ _ hG
    obtain ⟨s, g, hsm, hin, _⟩ := mem_buildRelatedWallets _ _ hpm
    obtain ⟨l, haccs, hgval, _⟩ := buildStakeMap_entries holders api (s, g) hsm
    have hinrel : (h0.address : String) ∈ relevantAddressesOf holders l := by
      rw [show relevantAddressesOf holders l = g from hgval.symm]
      exact hin
    exact hnc s l haccs ((mem_relevant holders l _).mp hinrel).1

/-- Witness for C7 (amended): with every lookup failing, the single holder is
still returned and carries an empty related set. -/
theorem C7_failure_containment_witness :
    (findRelatedWallets [⟨"addrA", "30", []⟩] apiAllFail).length
        = ([⟨"addrA", "30", []⟩] : List TokenHolder).length
    ∧ (⟨"addrA", "30", []⟩ : TokenHolder).relatedAddresses = [] :=
  ⟨(C7_failure_containment.1 [⟨"addrA", "30", []⟩] apiAllFail).1,
    C7_failure_containment.2 [⟨"addrA", "30", []⟩] apiAllFail ⟨"addrA", "30", []⟩
      (by decide) (Or.inl (by decide))
      (by
        intro s l h
        simp [apiAllFail] at h)⟩

theorem fetchAssetsDispatch_cons2 (a0 a1 : AssetInfo) (rest : List AssetInfo) :
    fetchAssetsDispatch (a0 :: a1 :: rest)
      = if isFungibleToken (a0 :: a1 :: rest) then FetchMode.aggregate
        else FetchMode.single a0.asset := rfl

theorem isFungibleToken_iff (a0 a1 : AssetInfo) (rest : List AssetInfo) :
    isFungibleToken (a0 :: a1 :: rest) = true
      ↔ ∀ a ∈ a0 :: a1 :: rest, a.name.getD "" = "" ∨ a.name = a0.name := by
  rw [isFungibleToken, List.all_eq_true]
  simp only [List.headD_cons, Bool.or_eq_true, beq_iff_eq]

/-- C10: with more than one asset, the fungible aggregation path is taken iff
every asset has a falsy (missing or empty) display name or a name equal to the
first asset's name — assets lacking a name count as matching; otherwise the
single-asset path on the first asset is taken. -/
theorem C10_dispatch :
    ∀ (assets : List AssetInfo), 1 < assets.length →
      (fetchAssetsDispatch assets = FetchMode.aggregate
        ↔ ∀ a ∈ assets, a.name.getD "" = "" ∨ a.name = (assets.headD ⟨"", none⟩).name)
      ∧ (fetchAssetsDispatch assets ≠ FetchMode.aggregate →
          fetchAssetsDispatch assets = FetchMode.single (assets.headD ⟨"", none⟩).asset) := by
  intro assets hlen
  match assets with
  | [] => simp at hlen
  | [a] => simp at hlen
  | a0 :: a1 :: rest =>
    rw [fetchAssetsDispatch_cons2]
    simp only [List.headD_cons]
    by_cases hf : isFungibleToken (a0 :: a1 :: rest)
    · rw [if_pos hf]
      exact ⟨⟨fun _ => (isFungibleToken_iff a0 a1 rest).mp hf, fun _ => rfl⟩,
        fun hne => absurd rfl hne⟩
    · rw [if_neg hf]
      refine ⟨⟨fun h => by simp at h, fun hall => ?_⟩, fun _ => rfl⟩
      exact absurd ((isFungibleToken_iff a0 a1 rest).mpr hall) hf

/-- Witness for C10 on two assets where the second lacks a name: the
aggregation path is taken and the name condition holds. -/
theorem C10_dispatch_witness :
    (fetchAssetsDispatch [⟨"a1", some "X"⟩, ⟨"a2", none⟩] = FetchMode.aggregate
      ↔ ∀ a ∈ ([⟨"a1", some "X"⟩, ⟨"a2", none⟩] : List AssetInfo),
          a.name.getD "" = ""
            ∨ a.name = (([⟨"a1", some "X"⟩, ⟨"a2", none⟩] : List AssetInfo).headD
                ⟨"", none⟩).name)
    ∧ (fetchAssetsDispatch [⟨"a1", some "X"⟩, ⟨"a2", none⟩] ≠ FetchMode.aggregate →
        fetchAssetsDispatch [⟨"a1", some "X"⟩, ⟨"a2", none⟩]
          = FetchMode.single (([⟨"a1", some "X"⟩, ⟨"a2", none⟩] : List AssetInfo).headD
              ⟨"", none⟩).asset) :=
  C10_dispatch [⟨"a1", some "X"⟩, ⟨"a2", none⟩] (by decide)

end Bubblemap
